import Mathlib

set_option maxRecDepth 8000
set_option maxHeartbeats 1000000

/-!
Verification of the ruby-transpiler code generator
(`src/ruby-transpiler/ruby-transpiler.js`, classes `RubyTranspiler` and
`TranspilerSuper`).

The dispatch engine is embedded as a recursive function over a tagged AST
(`Node`), threading the emission buffer and the (possibly mutated) tree
explicitly: the JavaScript code mutates nodes in place (`IfStatement`
consequent wrapping, `ForStatement` desugaring), so every translation
function returns the node as the traversal leaves it, alongside the buffer.
Fallible behaviour (dispatch of an unregistered node tag, `.push` on the
body of a non-block `for` body, `new RegExp` on a malformed pattern) is
modelled with `Except`.

The low-level text buffer (`buffer.js`) and the correction table
(`ruby.json`) are not part of the sources; they are modelled from the
spec where definitions below say so.
-/

namespace RubyT

/-- Whitespace characters recognised by the buffer's trim operation. -/
def isWS (c : Char) : Bool := c = ' ' || c = '\n' || c = '\t'

/-- Modelled from the spec: the Emission Buffer of `buffer.js` (absent from
the sources), per the contract in section 4.1: a text accumulator plus an
indentation counter.  `add` appends to the current line, `newline`
terminates the current line and opens a new one at the current indent
(two spaces per level here; the spec does not fix the width), `trim`
removes trailing whitespace (so a following `add` continues the last
non-blank line), and `deleteLines n` retracts the last `n` completed
lines, keeping the current partial line. -/
structure Buffer where
  text : List Char
  ind : Nat
deriving DecidableEq, Repr

def Buffer.empty : Buffer := ⟨[], 0⟩

def Buffer.add (b : Buffer) (s : String) : Buffer :=
  { b with text := b.text ++ s.toList }

def Buffer.newline (b : Buffer) : Buffer :=
  { b with text := b.text ++ '\n' :: List.replicate (2 * b.ind) ' ' }

def Buffer.indent (b : Buffer) : Buffer := { b with ind := b.ind + 1 }

def Buffer.dedent (b : Buffer) : Buffer := { b with ind := b.ind - 1 }

def Buffer.trim (b : Buffer) : Buffer :=
  { b with text := (b.text.reverse.dropWhile isWS).reverse }

/-- Drop `n` newline-terminated lines from the front of a reversed buffer
text whose current partial line has already been removed. -/
def dropLinesRev : Nat → List Char → List Char
  | 0, r => r
  | n + 1, r => dropLinesRev n ((r.drop 1).dropWhile (fun c => c ≠ '\n'))

def Buffer.deleteLines (b : Buffer) (n : Nat) : Buffer :=
  let r := b.text.reverse
  let cur := r.takeWhile (fun c => c ≠ '\n')
  let rest := r.dropWhile (fun c => c ≠ '\n')
  { b with text := (cur ++ dropLinesRev n rest).reverse }

def Buffer.get (b : Buffer) : String := String.mk b.text

/- AST nodes, tagged as in the source (`node.type`).  Only the node kinds
exercised by the claims are embedded.  `unknown` stands for any tag for
which no operation is registered on the transpiler.  Child-node lists are
a mutually defined list type so that translation can recurse
structurally; `OptNode` likewise replaces `Option Node` for the optional
`alternate`, `init` and `argument` children. -/
mutual
inductive Node where
  | program (body : NodeList)
  | exprStmt (expression : Node)
  | blockStmt (body : NodeList)
  | ifStmt (test : Node) (consequent : Node) (alternate : OptNode)
  | varDecl (declarations : NodeList)
  | varDeclarator (id : Node) (declInit : OptNode)
  | returnStmt (argument : OptNode)
  | forStmt (forInit : Node) (test : Node) (update : Node) (body : Node)
  | whileStmt (test : Node) (body : Node)
  | updateExpr (operator : String) (pre : Bool) (argument : Node)
  | binary (operator : String) (left : Node) (right : Node)
  | call (callee : Node) (arguments : NodeList)
  | ident (name : String)
  | numLit (raw : String)
  | strLit (raw : String)
  | unknown (tag : String)
deriving DecidableEq, Repr
inductive NodeList where
  | nil
  | cons (head : Node) (tail : NodeList)
deriving DecidableEq, Repr
inductive OptNode where
  | none
  | some (node : Node)
deriving DecidableEq, Repr
end

def NodeList.append : NodeList → NodeList → NodeList
  | .nil, ys => ys
  | .cons x xs, ys => .cons x (xs.append ys)

/-- Tag test used by `BinaryExpression` (`node.left.type == "BinaryExpression"`). -/
def Node.isBinaryExpression : Node → Bool
  | .binary _ _ _ => true
  | _ => false

/-- Tag test used by `IfStatement` (`node.consequent.type != 'BlockStatement'`). -/
def Node.isBlockStatement : Node → Bool
  | .blockStmt _ => true
  | _ => false

/-- Failures of a translation run: dispatching a tag with no registered
operation (`this[node.type] is not a function` in the source), pushing the
update onto the body of a `for` whose body is not a block
(`node.body.body.push` on `undefined`), and constructing a `RegExp` from a
malformed correction pattern in `correct`. -/
inductive TErr where
  | unsupportedNode (tag : String)
  | nonBlockForBody
  | invalidPattern (pat : String)
deriving DecidableEq, Repr

/-
The node-dispatch engine: `RubyTranspiler`'s per-tag operations (with the
`TranspilerSuper` operations they delegate to inlined), threading the
buffer.  Mirrors `this[node.type](node)` dispatch; the returned `Node` is
the node as the JavaScript traversal leaves it in the caller's tree.

Two places rebuild nodes in place in the source and are inlined here so
the recursion stays on subterms:
* `IfStatement` on a non-block consequent runs
  `Object.assign(tempNode, node.consequent)` into `{type:'ReturnStatement'}`
  — the copy overwrites the `type` field, so `tempNode` is just a copy of
  the consequent — and then dispatches the consequent as a one-statement
  `BlockStatement`; the block branch is inlined on that singleton body.
* `ForStatement` retags the node as a `WhileStatement` whose block body
  has `node.update` pushed at the end and redispatches it; the
  `WhileStatement`/`BlockStatement` branches are inlined, with the body
  list traversed and then the pushed update (the JavaScript `for`-of loop
  over the extended array visits exactly these, in this order).  The stale
  `init`/`update` fields the mutated JavaScript object still carries are
  not represented.
-/
mutual
def recursiveParse (b : Buffer) : Node → Except TErr (Buffer × Node)
  | .program l => do
      let (b, l') ← parseNodes b l
      pure (b, .program l')
  | .exprStmt e => do
      let (b, e') ← recursiveParse b e
      pure (b.newline, .exprStmt e')
  | .blockStmt l => do
      let (b, l') ← parseNodes (b.indent.newline) l
      pure ((((b.trim.dedent.newline).add "end").newline), .blockStmt l')
  | .ifStmt t c a => do
      let (b, t') ← recursiveParse (b.add "if ") t
      let (b, c') ←
        if c.isBlockStatement then
          recursiveParse b c
        else do
          let (b, c1) ← recursiveParse (b.indent.newline) c
          pure ((((b.trim.dedent.newline).add "end").newline),
            Node.blockStmt (.cons c1 .nil))
      match a with
      | .none => pure (b, .ifStmt t' c' .none)
      | .some al => do
          let (b, al') ← recursiveParse ((b.deleteLines 1).add "else ") al
          pure (b, .ifStmt t' c' (.some al'))
  | .varDecl ds => do
      let (b, ds') ← parseNodes b ds
      pure (b.newline, .varDecl ds')
  | .varDeclarator i d => do
      let (b, i') ← recursiveParse b i
      match d with
      | .none => pure (b, .varDeclarator i' .none)
      | .some e => do
          let (b, e') ← recursiveParse (b.add " = ") e
          pure (b, .varDeclarator i' (.some e'))
  | .returnStmt a =>
      match a with
      | .none => pure (((Buffer.add b "return ").newline), .returnStmt .none)
      | .some e => do
          let (b, e') ← recursiveParse (b.add "return ") e
          pure (b.newline, .returnStmt (.some e'))
  | .forStmt i t u body => do
      let (b, _i') ← recursiveParse b i
      match body with
      | .blockStmt ss => do
          let (b, t') ← recursiveParse (b.add "while (") t
          let (b, ss') ← parseNodes (((b.add ")").indent.newline)) ss
          let (b, u') ← recursiveParse b u
          pure ((((b.trim.dedent.newline).add "end").newline),
            .whileStmt t' (.blockStmt (ss'.append (.cons u' .nil))))
      | _ => .error .nonBlockForBody
  | .whileStmt t body => do
      let (b, t') ← recursiveParse (b.add "while (") t
      let (b, body') ← recursiveParse (b.add ")") body
      pure (b, .whileStmt t' body')
  | .updateExpr op pre arg => do
      let b := if pre then b.add op else b
      let (b, arg') ← recursiveParse b arg
      let b := if pre then b else b.add op
      pure (b, .updateExpr op pre arg')
  | .binary op l r => do
      let (b, l') ←
        if l.isBinaryExpression then do
          let (b, l') ← recursiveParse (b.add "(") l
          pure (b.add ")", l')
        else recursiveParse b l
      let b := ((b.add " ").add op).add " "
      let (b, r') ←
        if r.isBinaryExpression then do
          let (b, r') ← recursiveParse (b.add "(") r
          pure (b.add ")", r')
        else recursiveParse b r
      pure (b, .binary op l' r')
  | .call callee args => do
      let (b, callee') ← recursiveParse b callee
      let b := b.add "("
      let (b, args') ←
        match args with
        | .nil => pure (b, NodeList.nil)
        | .cons a rest => do
            let (b, a') ← recursiveParse b a
            let (b, rest') ← parseArgsTail b rest
            pure (b, NodeList.cons a' rest')
      pure (b.add ")", .call callee' args')
  | .ident n => pure (b.add n, .ident n)
  | .numLit raw => pure (b.add raw, .numLit raw)
  | .strLit raw => pure (b.add raw, .strLit raw)
  | .unknown tag => .error (.unsupportedNode tag)
def parseNodes (b : Buffer) : NodeList → Except TErr (Buffer × NodeList)
  | .nil => pure (b, .nil)
  | .cons n t => do
      let (b, n') ← recursiveParse b n
      let (b, t') ← parseNodes b t
      pure (b, .cons n' t')
def parseArgsTail (b : Buffer) : NodeList → Except TErr (Buffer × NodeList)
  | .nil => pure (b, .nil)
  | .cons a rest => do
      let (b, a') ← recursiveParse (b.add ", ") a
      let (b, rest') ← parseArgsTail b rest
      pure (b, .cons a' rest')
end

end RubyT

namespace RubyT

/-! ### The Correction Pipeline (`RubyTranspiler.correct`)

The pipeline is a sequence of textual passes over the generated code:
the correction-table substitutions, the `Math.floor` rewrite, the
higher-order-function heuristic, the `x++` rewrite and the `puts`
argument stringification.  Each JavaScript regular-expression pass is
embedded as a character-level scanner with the same match semantics on
the pattern in question (leftmost match, greedy/lazy quantifier
behaviour and global continuation are reproduced for each concrete
pattern; details are noted at each definition). -/

/-- JavaScript `\w`: ASCII letters, digits and underscore. -/
def isWordChar (c : Char) : Bool :=
  let n := c.toNat
  (97 ≤ n && n ≤ 122) || (65 ≤ n && n ≤ 90) || (48 ≤ n && n ≤ 57) || n == 95

/-- JavaScript `\s` on the ASCII range (space, tab, newline, carriage
return, form feed, vertical tab). -/
def isSpaceChar (c : Char) : Bool :=
  let n := c.toNat
  n == 32 || n == 9 || n == 10 || n == 13 || n == 12 || n == 11

/-- Case-insensitive character comparison (the `i` regex flag). -/
def eqCI (a b : Char) : Bool := a.toLower == b.toLower

/-- Does `l` start with `pat`, case-insensitively? -/
def startsWithCI : List Char → List Char → Bool
  | [], _ => true
  | _ :: _, [] => false
  | p :: ps, c :: cs => eqCI p c && startsWithCI ps cs

/-- First index at which `l` starts with `pat` (case-insensitive). -/
def findCI (pat : List Char) : List Char → Option Nat
  | [] => if pat.isEmpty then some 0 else none
  | c :: t =>
      if startsWithCI pat (c :: t) then some 0
      else (findCI pat t).map (· + 1)

/-- Split on newline characters; the last piece is the trailing
unterminated line (possibly empty). -/
def splitNl : List Char → List (List Char)
  | [] => [[]]
  | c :: t =>
      if c = '\n' then [] :: splitNl t
      else
        match splitNl t with
        | h :: r => (c :: h) :: r
        | [] => [[c]]

def joinNl : List (List Char) → List Char
  | [] => []
  | [l] => l
  | l :: r => l ++ '\n' :: joinNl r

/-- Index of the last occurrence of `c` in `l`. -/
def lastIdxOf (c : Char) (l : List Char) : Option Nat :=
  match l.reverse.findIdx? (fun x => x = c) with
  | Option.none => Option.none
  | Option.some i => Option.some (l.length - 1 - i)

/-- One line of the `Math.floor` rewrite
(`code.replace(/Math.floor\((.+)\)/gm, '($1).floor')`, line 27 of the
source; no `i` flag, `.` matches any character but a newline).  The match
starts at the first position where `Math` + any character + `floor(`
occurs, and the greedy `.+` followed by `\)` extends the capture to the
line's last `)` as long as it is nonempty; the text after that `)`
contains no further `)` and hence no further match, so the scan stops
there.  If the candidate prefix has no viable closing `)` the engine
moves on one character. -/
def floorPrefixAt : List Char → Bool
  | 'M' :: 'a' :: 't' :: 'h' :: _ :: 'f' :: 'l' :: 'o' :: 'o' :: 'r' :: '(' :: _ => true
  | _ => false

def floorScan : List Char → List Char
  | [] => []
  | c :: t =>
      if floorPrefixAt (c :: t) then
        let rest := (c :: t).drop 11
        match lastIdxOf ')' rest with
        | Option.some q =>
            if 1 ≤ q then
              '(' :: rest.take q ++ (").floor").toList ++ rest.drop (q + 1)
            else c :: floorScan t
        | Option.none => c :: floorScan t
      else c :: floorScan t

def floorPass (s : String) : String :=
  String.mk (joinNl ((splitNl s.toList).map floorScan))

/- The postfix-increment rewrite
(`code.replace(/(\w+)\+\+/gmi, '$1 += 1')`, lines 70f of the source).
A match is a nonempty maximal run of word characters immediately
followed by `++`; the replacement keeps the run and turns `++` into
` += 1`, and scanning resumes after the consumed `++` (the replacement
text itself is not rescanned, as with JavaScript `replace`).  `incrRun`
carries the current word run in reverse; since `+` is not a word
character, the `'+' :: '+' :: _` case only fires at the end of a maximal
run. -/
mutual
def incrGo : List Char → List Char
  | [] => []
  | c :: t => if isWordChar c then incrRun [c] t else c :: incrGo t
def incrRun (run : List Char) : List Char → List Char
  | [] => run.reverse
  | c :: t =>
      if isWordChar c then incrRun (c :: run) t
      else
        match t with
        | t0 :: t2 =>
            if c = '+' && t0 = '+' then
              run.reverse ++ (" += 1").toList ++ incrGo t2
            else run.reverse ++ c :: incrGo (t0 :: t2)
        | [] => run.reverse ++ [c]
end

def incrPass (s : String) : String := String.mk (incrGo s.toList)

/-- Prepend a character onto the first piece of a split. -/
def consHead (c : Char) : List (List Char) → List (List Char)
  | h :: r => (c :: h) :: r
  | [] => [[c]]

/-- JavaScript `String.prototype.split(" + ")`: split on exact
occurrences of the three-character separator, left to right. -/
def splitPlusSep : List Char → List (List Char)
  | [] => [[]]
  | c :: t =>
      match t with
      | c2 :: c3 :: t3 =>
          if c = ' ' && c2 = '+' && c3 = ' ' then [] :: splitPlusSep t3
          else consHead c (splitPlusSep (c2 :: c3 :: t3))
      | [c2] => consHead c (splitPlusSep [c2])
      | [] => consHead c (splitPlusSep [])

def joinPlusSep : List (List Char) → List Char
  | [] => []
  | [a] => a
  | a :: r => a ++ ' ' :: '+' :: ' ' :: joinPlusSep r

/-- Argument stringification of the `puts` rewrite: an argument whose
first character is neither `'` nor `"` is wrapped as `(arg).to_s`
(an empty argument also gets wrapped: `undefined` compares unequal to
both quote characters in the source). -/
def wrapArg (a : List Char) : List Char :=
  if a.head? = Option.some '\'' || a.head? = Option.some '"' then a
  else '(' :: a ++ (").to_s").toList

/-- One newline-terminated line of the `puts` rewrite
(`code.replace(/puts\((.+)\)\n/gmi, ...)`, lines 73-83 of the source).
Because `.` does not match a newline and `\)` must be followed by `\n`,
a match requires the line to end with `)`; the greedy capture runs from
the first case-insensitive `puts(` to that final `)` and must be
nonempty.  The replacer splits the capture on ` + `, wraps each
non-string-literal argument, and re-emits a single lowercase `puts`
call. -/
def putsLine (l : List Char) : List Char :=
  match findCI ("puts(").toList l with
  | Option.none => l
  | Option.some p =>
      let inner := l.drop (p + 5)
      if inner.getLast? = Option.some ')' && 2 ≤ inner.length then
        l.take p ++ ("puts(").toList
          ++ joinPlusSep ((splitPlusSep inner.dropLast).map wrapArg) ++ [')']
      else l

def putsPass (s : String) : String :=
  let parts := splitNl s.toList
  String.mk (joinNl (parts.dropLast.map putsLine ++ [parts.getLastD []]))

example : floorPass "x = Math.floor(a / 2)\n" = "x = (a / 2).floor\n" := rfl
example : incrPass "i++\n" = "i += 1\n" := rfl
example : incrPass "while (i < 3)\n  f(i)\n  i++\nend\n"
    = "while (i < 3)\n  f(i)\n  i += 1\nend\n" := rfl
example : putsPass "puts(a + \"b\" + c)\n"
    = "puts((a).to_s + \"b\" + (c).to_s)\n" := rfl
example : putsPass "puts((x).to_s)\n" = "puts(((x).to_s).to_s)\n" := rfl


/-! ### Higher-order-function heuristic (lines 30-68 of the source)

`correct` first rewrites every definition block matched by
`/def (\w+)\(.+\)\n(.+\n)+/gmi`: inside such a block, each declared
parameter that is textually invoked (`param(`) has its first invocation
rewritten to `param.call(` and the block's `$1` (the first function
name) is recorded with that parameter's zero-based position.  It then,
once per recorded function, rewrites argument lists of lines calling the
literal marker `mathematics(` (not preceded by `def` + whitespace),
wrapping the argument at the recorded position in `method(:...)`; the
replacement counter persists across all matches of one such pass. -/

/-- Case-sensitive prefix test (JavaScript `indexOf` and `replace` with a
string argument compare exactly). -/
def startsWithL : List Char → List Char → Bool
  | [], _ => true
  | _ :: _, [] => false
  | p :: ps, c :: cs => p == c && startsWithL ps cs

def findSub (pat : List Char) : List Char → Option Nat
  | [] => if pat.isEmpty then Option.some 0 else Option.none
  | c :: t =>
      if startsWithL pat (c :: t) then Option.some 0
      else (findSub pat t).map (· + 1)

def containsSub (pat s : List Char) : Bool := (findSub pat s).isSome

/-- JavaScript `String.prototype.replace` with a plain-string pattern:
replace the first occurrence only. -/
def replaceFirstSub (pat repl s : List Char) : List Char :=
  match findSub pat s with
  | Option.none => s
  | Option.some i => s.take i ++ repl ++ s.drop (i + pat.length)

/-- Insertion-ordered string-keyed map update, as JavaScript object
property assignment behaves: an existing key keeps its position, a new
key is appended. -/
def upsert (k : String) (v : Nat) : List (String × Nat) → List (String × Nat)
  | [] => [(k, v)]
  | (k0, v0) :: t => if k0 = k then (k, v) :: t else (k0, v0) :: upsert k v t

/-- Consume the maximal run of nonempty newline-terminated lines
(the `(.+\n)+` tail of the definition-block pattern); returns the
consumed text (newlines included) and the rest. -/
def grabLines : Nat → List Char → List Char × List Char
  | 0, s => ([], s)
  | fuel + 1, s =>
      let line := s.takeWhile (fun c => c ≠ '\n')
      match line, s.drop line.length with
      | _ :: _, '\n' :: r2 =>
          let (more, rfin) := grabLines fuel r2
          (line ++ '\n' :: more, rfin)
      | _, _ => ([], s)

/-- Match of `/def (\w+)\(.+\)\n(.+\n)+/gmi` at the current position:
case-insensitive `def `, a nonempty word run (the `$1` capture), `(`,
a nonempty greedy stretch up to a `)` that must sit at the end of the
line (since `\n` follows it), and then at least one nonempty terminated
line.  Returns the whole block, the capture and the rest of the text. -/
def hofMatchAt (l : List Char) : Option (List Char × List Char × List Char) :=
  if startsWithCI ("def ").toList l then
    let line := l.takeWhile (fun c => c ≠ '\n')
    let w := (line.drop 4).takeWhile isWordChar
    let mid := line.drop (5 + w.length)
    if w.isEmpty || ((line.drop (4 + w.length)).head? ≠ Option.some '(')
        || (mid.getLast? ≠ Option.some ')') || mid.length < 2
        || ((l.drop line.length).head? ≠ Option.some '\n') then
      Option.none
    else
      let afterNl := l.drop (line.length + 1)
      match grabLines afterNl.length afterNl with
      | ([], _) => Option.none
      | (body, rest) => Option.some (line ++ '\n' :: body, w, rest)
  else Option.none

/-- The captures of `def.matchAll(/def \w+\((.+)\)/gmi)` (line 32): for
each case-insensitive `def ` + word run + `(`, the greedy capture up to
the last `)` on that line (nonempty); scanning resumes after each
match. -/
def declCapAt (l : List Char) : Option (List Char × List Char) :=
  if startsWithCI ("def ").toList l then
    let line := l.takeWhile (fun c => c ≠ '\n')
    let w := (line.drop 4).takeWhile isWordChar
    let tail := line.drop (5 + w.length)
    if w.isEmpty || ((line.drop (4 + w.length)).head? ≠ Option.some '(') then
      Option.none
    else
      match lastIdxOf ')' tail with
      | Option.some q =>
          if 1 ≤ q then Option.some (tail.take q, l.drop (5 + w.length + q + 1))
          else Option.none
      | Option.none => Option.none
  else Option.none

def declCaps : Nat → List Char → List (List Char)
  | 0, _ => []
  | _ + 1, [] => []
  | fuel + 1, c :: t =>
      match declCapAt (c :: t) with
      | Option.some (cap, rest) => cap :: declCaps fuel rest
      | Option.none => declCaps fuel t

/-- First index `k ≥ start + 1` holding `)` with no newline strictly
before it from `start` on (the lazy `.+?\)` step of the parameter
tokenizer, which may run past the space/comma run). -/
def findCloseFrom : Nat → List Char → Nat → Option Nat
  | 0, _, _ => Option.none
  | _ + 1, [], _ => Option.none
  | fuel + 1, c :: t, i =>
      if c = '\n' then Option.none
      else if c = ')' && 1 ≤ i then Option.some i
      else findCloseFrom fuel t (i + 1)

/-- Branch 1 of the tokenizer `/([^\s,]+\(.+?\))|([^\s,]+)/gmi`: the
`[^\s,]+` run backtracks from its maximal extent `m` to the largest
`j ≥ 1` at which `m` holds `(`, and the lazy `.+?\)` then runs to the
first viable `)`. -/
def paramBranch1 (m s : List Char) : Nat → Option (List Char × Nat)
  | 0 => Option.none
  | j + 1 =>
      if m.get? (j + 1) = Option.some '(' then
        match findCloseFrom s.length (s.drop (j + 2)) 1 with
        | Option.some off =>
            let len := j + 2 + off + 1
            Option.some (s.take len, len)
        | Option.none => paramBranch1 m s j
      else paramBranch1 m s j

/-- Tokenize a captured parameter list with
`/([^\s,]+\(.+?\))|([^\s,]+)/gmi` (line 34): at each position not a
whitespace or comma, prefer a run with a lazily closed call suffix,
otherwise the plain run. -/
def paramTokens : Nat → List Char → List (List Char)
  | 0, _ => []
  | _ + 1, [] => []
  | fuel + 1, c :: t =>
      if isSpaceChar c || c = ',' then paramTokens fuel t
      else
        let m := (c :: t).takeWhile (fun x => !(isSpaceChar x || x = ','))
        match paramBranch1 m (c :: t) (m.length - 1) with
        | Option.some (tok, len) => tok :: paramTokens fuel ((c :: t).drop len)
        | Option.none => m :: paramTokens fuel ((c :: t).drop m.length)

/-- Lines 36-43: for each parameter token in order, if the block contains
`token(`, rewrite its first occurrence to `token.call(` and record the
outer capture with the token's zero-based position (later recorded
parameters overwrite the entry for the same name). -/
def applyTokens (w : String) : List (List Char) → Nat → List Char
    → List (String × Nat) → List Char × List (String × Nat)
  | [], _, blk, funcs => (blk, funcs)
  | tok :: rest, pos, blk, funcs =>
      if containsSub (tok ++ ['(']) blk then
        applyTokens w rest (pos + 1)
          (replaceFirstSub (tok ++ ['(']) (tok ++ (".call(").toList) blk)
          (upsert w pos funcs)
      else applyTokens w rest (pos + 1) blk funcs

/-- The replacer of lines 31-47, applied to one matched definition
block: every declaration capture found in the block is tokenized and
its tokens applied in order, mutating the block text as it goes; the
recorded function name is always the block's own `$1`. -/
def hofReplacer (blk w : List Char) (funcs : List (String × Nat)) :
    List Char × List (String × Nat) :=
  let caps := declCaps blk.length blk
  caps.foldl
    (fun (acc : List Char × List (String × Nat)) cap =>
      applyTokens (String.mk w) (paramTokens cap.length cap) 0 acc.1 acc.2)
    (blk, funcs)

def hofScan : Nat → List (String × Nat) → List Char
    → List Char × List (String × Nat)
  | 0, funcs, s => (s, funcs)
  | _ + 1, funcs, [] => ([], funcs)
  | fuel + 1, funcs, c :: t =>
      match hofMatchAt (c :: t) with
      | Option.some (blk, w, rest) =>
          let (blk', funcs') := hofReplacer blk w funcs
          let (out, funcs'') := hofScan fuel funcs' rest
          (blk' ++ out, funcs'')
      | Option.none =>
          let (out, funcs') := hofScan fuel funcs t
          (c :: out, funcs')

/-- The definition-block pass: rewrites every matched block and collects
the `higherOrderFuncs` record. -/
def hofDefsPass (s : String) : String × List (String × Nat) :=
  let (out, funcs) := hofScan (s.toList.length + 1) [] s.toList
  (String.mk out, funcs)


/-- Last `n` elements of a list. -/
def lastN (n : Nat) (l : List Char) : List Char := (l.reverse.take n).reverse

/-- All indices (ascending) at which `pat` occurs case-insensitively. -/
def findAllCI (pat : List Char) : Nat → List Char → Nat → List Nat
  | 0, _, _ => []
  | _ + 1, [], _ => []
  | fuel + 1, c :: t, i =>
      if startsWithCI pat (c :: t) then i :: findAllCI pat fuel t (i + 1)
      else findAllCI pat fuel t (i + 1)

/-- The negative lookbehind `(?<!def\s)` of the call-site pattern
(line 65): the candidate is eligible unless the four characters
immediately preceding it (which may reach across a newline into the
previous line: a newline is `\s`) are case-insensitive `def` plus a
whitespace character.  With fewer than four preceding characters the
lookbehind cannot match, so the candidate is eligible. -/
def lookbehindOK (ctx : List Char) (line : List Char) (k : Nat) : Bool :=
  match lastN 4 (ctx ++ line.take k) with
  | [d0, e0, f0, s0] =>
      !(eqCI d0 'd' && eqCI e0 'e' && eqCI f0 'f' && isSpaceChar s0)
  | _ => true

/-- One repetition of the argument-list atom
`(\w+(\([^()]+\))?(,\s)?)` : a nonempty word run, an optional
parenthesized stretch of non-parenthesis characters, an optional comma
followed by one whitespace character.  Returns the consumed length. -/
def mathTok (s : List Char) : Option Nat :=
  let w := s.takeWhile isWordChar
  if w.isEmpty then Option.none
  else
    let n1 := w.length
    let n2 :=
      match s.drop n1 with
      | '(' :: r2 =>
          let inner := r2.takeWhile (fun c => !(c = '(' || c = ')'))
          if !inner.isEmpty && (r2.drop inner.length).head? = Option.some ')' then
            n1 + 2 + inner.length
          else n1
      | _ => n1
    match s.drop n2 with
    | ',' :: x :: _ => if isSpaceChar x then Option.some (n2 + 2) else Option.some n2
    | _ => Option.some n2

/-- Greedy repetition of the argument atom (`(...)+`): repeats as long
as a word character follows, since each iteration begins with `\w+`. -/
def tokSeqFrom : Nat → List Char → Nat
  | 0, _ => 0
  | fuel + 1, s =>
      match mathTok s with
      | Option.none => 0
      | Option.some n =>
          if n = 0 then 0 else n + tokSeqFrom fuel (s.drop n)

/-- The inner rewrite `params.replace(/\w+(\(.+\))?/gmi, replacer)`
(line 66): each word run, greedily extended over a parenthesized tail up
to the last `)` when one follows, is passed to the replacer, which wraps
the match at index `pos` (the counter starts at the first call and, as
`replacer.i` in the source, keeps counting across every call of the
enclosing pass) in `method(:...)`. -/
def innerRw (pos : Nat) : Nat → Nat → List Char → List Char × Nat
  | 0, ctr, s => (s, ctr)
  | _ + 1, ctr, [] => ([], ctr)
  | fuel + 1, ctr, c :: t =>
      if isWordChar c then
        let run := (c :: t).takeWhile isWordChar
        let whole :=
          match (c :: t).drop run.length with
          | '(' :: r2 =>
              match lastIdxOf ')' r2 with
              | Option.some q => if 1 ≤ q then run ++ '(' :: r2.take (q + 1) else run
              | Option.none => run
          | _ => run
        let repl := if ctr = pos then ("method(:").toList ++ whole ++ [')'] else whole
        let (out, ctr2) := innerRw pos fuel (ctr + 1) ((c :: t).drop whole.length)
        (repl ++ out, ctr2)
      else
        let (out, ctr2) := innerRw pos fuel ctr t
        (c :: out, ctr2)

/-- Try the candidates for `mathematics(` on one line, last first (the
greedy `.*` of group 1 prefers the rightmost viable candidate): the
argument-list atoms must be followed by `)` and at least one further
character (`\).+`); on success group 2 is rewritten in place and the
counter advanced. -/
def mathTryCands (pos : Nat) (ctr : Nat) (line : List Char) :
    List Nat → Option (List Char × Nat)
  | [] => Option.none
  | k :: ks =>
      let args := line.drop (k + 12)
      let total := tokSeqFrom args.length args
      if total = 0 then mathTryCands pos ctr line ks
      else if (line.drop (k + 12 + total)).head? = Option.some ')'
          && !(line.drop (k + 12 + total + 1)).isEmpty then
        let (rw, ctr2) := innerRw pos (total + 1) ctr (args.take total)
        Option.some (line.take (k + 12) ++ rw ++ line.drop (k + 12 + total), ctr2)
      else mathTryCands pos ctr line ks

/-- One line of one call-site pass; the match, when it exists, runs to
the end of the line, so at most one rewrite happens per line. -/
def mathLineGo (pos ctr : Nat) (ctx line : List Char) : List Char × Nat :=
  let cands := (findAllCI ("mathematics(").toList line.length line 0).filter
    (fun k => lookbehindOK ctx line k)
  match mathTryCands pos ctr line cands.reverse with
  | Option.some r => r
  | Option.none => (line, ctr)

/-- All lines of one call-site pass, threading the replacer counter and
the four-character lookbehind context (computed on the original text, as
`replace` matches against its input). -/
def mathLines (pos : Nat) : Nat → List Char → List (List Char) → List (List Char)
  | _, _, [] => []
  | ctr, ctx, l :: rest =>
      let (l2, ctr2) := mathLineGo pos ctr ctx l
      l2 :: mathLines pos ctr2 (lastN 4 (ctx ++ l ++ ['\n'])) rest

def mathOnce (pos : Nat) (s : String) : String :=
  String.mk (joinNl (mathLines pos 0 [] (splitNl s.toList)))

/-- Lines 49-68: one full call-site pass per recorded function, in
record order; the pattern itself never mentions the function name. -/
def mathPass (funcs : List (String × Nat)) (s : String) : String :=
  funcs.foldl (fun code f => mathOnce f.2 code) s


/-! ### Correction table (`this.corrections`, applied on lines 23-25)

The table itself (`ruby.json`) is loaded from storage and is not part of
the sources; following section 6 of the spec it is modelled as an
injected ordered list of pattern/replacement pairs.  `correct` compiles
`new RegExp(key, 'gmi')` for each entry as it iterates — so a malformed
pattern surfaces there, during a translation run.  The host regular
expression syntax and matching are modelled for a fragment sufficient
for the patterns considered here: literals, escapes, `.`, classes,
groups, alternation and the `* + ?` quantifiers, with case-insensitive
matching and `^`/`$` as line anchors (the `gmi` flags); an unterminated
group or class, a trailing backslash, a dangling or doubled quantifier
and an unbalanced `)` are syntax errors, as for the host.  Unmodelled
host features (lookaround groups, quantifier braces, class ranges,
capture references in the replacement) are outside the fragment:
quantifier braces and class range dashes read as literal characters,
lookaround groups are rejected, replacements are inserted verbatim. -/

inductive RE where
  | eps
  | lit (c : Char)
  | anyc
  | cls (neg : Bool) (cs : List Char)
  | seq (a b : RE)
  | alt (a b : RE)
  | star (r : RE)
  | plus (r : RE)
  | opt (r : RE)
  | bol
  | eol
deriving DecidableEq, Repr

def reSize : RE → Nat
  | .seq a b => reSize a + reSize b + 1
  | .alt a b => reSize a + reSize b + 1
  | .star r => reSize r + 1
  | .plus r => reSize r + 1
  | .opt r => reSize r + 1
  | _ => 1

def digitChars : List Char := ("0123456789").toList

def wordChars : List Char :=
  ("abcdefghijklmnopqrstuvwxyzABCDEFGHIJKLMNOPQRSTUVWXYZ0123456789_").toList

def spaceChars : List Char := [' ', '\t', '\n', '\r', Char.ofNat 11, Char.ofNat 12]

/-- Character-class body up to the closing `]`; `Option.none` on an
unterminated class or trailing backslash. -/
def parseCls : Nat → List Char → List Char → Option (List Char × List Char)
  | 0, _, _ => Option.none
  | _ + 1, _, [] => Option.none
  | _ + 1, acc, ']' :: r => Option.some (acc.reverse, r)
  | _ + 1, _, ['\\'] => Option.none
  | fuel + 1, acc, '\\' :: c :: r => parseCls fuel (c :: acc) r
  | fuel + 1, acc, c :: r => parseCls fuel (c :: acc) r

def escapeRE (c : Char) : RE :=
  match c with
  | 'd' => .cls false digitChars
  | 'w' => .cls false wordChars
  | 's' => .cls false spaceChars
  | 'D' => .cls true digitChars
  | 'W' => .cls true wordChars
  | 'S' => .cls true spaceChars
  | 'n' => .lit '\n'
  | 't' => .lit '\t'
  | 'r' => .lit '\r'
  | _ => .lit c

/-- A quantifier directly after a quantifier (possibly lazy) is a
"nothing to repeat" syntax error. -/
def noMoreQ (a : RE) (s : List Char) : Option (RE × List Char) :=
  match s with
  | '*' :: _ => Option.none
  | '+' :: _ => Option.none
  | '?' :: _ => Option.none
  | _ => Option.some (a, s)

/-- Optional lazy modifier `?` after a quantifier (laziness itself is
not distinguished by the matcher model). -/
def afterQ (a : RE) (s : List Char) : Option (RE × List Char) :=
  match s with
  | '?' :: r => noMoreQ a r
  | _ => noMoreQ a s

def quantQ (a : RE) (s : List Char) : Option (RE × List Char) :=
  match s with
  | '*' :: r => afterQ (.star a) r
  | '+' :: r => afterQ (.plus a) r
  | '?' :: r => afterQ (.opt a) r
  | _ => Option.some (a, s)

mutual
def parseAlt : Nat → List Char → Option (RE × List Char)
  | 0, _ => Option.none
  | fuel + 1, s => do
      let (a, r) ← parseSeq fuel s
      match r with
      | '|' :: r2 => do
          let (b, r3) ← parseAlt fuel r2
          pure (RE.alt a b, r3)
      | _ => pure (a, r)
def parseSeq : Nat → List Char → Option (RE × List Char)
  | 0, _ => Option.none
  | fuel + 1, s =>
      match s with
      | [] => Option.some (.eps, [])
      | ')' :: _ => Option.some (.eps, s)
      | '|' :: _ => Option.some (.eps, s)
      | _ => do
          let (a, r) ← parseAtomQ fuel s
          let (b, r2) ← parseSeq fuel r
          pure (RE.seq a b, r2)
def parseAtomQ : Nat → List Char → Option (RE × List Char)
  | 0, _ => Option.none
  | fuel + 1, s =>
      match s with
      | '(' :: r =>
          let body :=
            match r with
            | '?' :: ':' :: r2 => Option.some r2
            | '?' :: _ => Option.none
            | _ => Option.some r
          match body with
          | Option.none => Option.none
          | Option.some r2 =>
              match parseAlt fuel r2 with
              | Option.some (g, ')' :: r3) => quantQ g r3
              | _ => Option.none
      | '[' :: '^' :: r =>
          match parseCls r.length [] r with
          | Option.some (cs, r2) => quantQ (.cls true cs) r2
          | Option.none => Option.none
      | '[' :: r =>
          match parseCls r.length [] r with
          | Option.some (cs, r2) => quantQ (.cls false cs) r2
          | Option.none => Option.none
      | ['\\'] => Option.none
      | '\\' :: c :: r => quantQ (escapeRE c) r
      | '.' :: r => quantQ .anyc r
      | '^' :: r => quantQ .bol r
      | '$' :: r => quantQ .eol r
      | '*' :: _ => Option.none
      | '+' :: _ => Option.none
      | '?' :: _ => Option.none
      | ')' :: _ => Option.none
      | '|' :: _ => Option.none
      | [] => Option.none
      | c :: r => quantQ (.lit c) r
end

/-- Compilation of `new RegExp(pattern, 'gmi')`: `Option.none` models the
`SyntaxError` the host construction throws. -/
def compilePattern (p : String) : Option RE :=
  match parseAlt (4 * p.toList.length + 8) p.toList with
  | Option.some (re, []) => Option.some re
  | _ => Option.none

/-- Backtracking matcher, producing the (previous character, remainder)
pairs of all matches at the current position in preference order
(alternation left first, quantifiers greedy); the previous character
feeds the `^` line anchor under the `m` flag, comparison is
case-insensitive under the `i` flag.  The fuel bounds the recursion
depth; callers supply enough for it never to run out on the modelled
fragment. -/
def reMatch : Nat → RE → Option Char → List Char → List (Option Char × List Char)
  | 0, _, _, _ => []
  | _ + 1, .eps, prev, s => [(prev, s)]
  | _ + 1, .lit c, _, s =>
      match s with
      | [] => []
      | x :: t => if eqCI c x then [(Option.some x, t)] else []
  | _ + 1, .anyc, _, s =>
      match s with
      | [] => []
      | x :: t => if x = '\n' then [] else [(Option.some x, t)]
  | _ + 1, .cls neg cs, _, s =>
      match s with
      | [] => []
      | x :: t =>
          if (cs.any (fun c => eqCI c x)) ≠ neg then [(Option.some x, t)] else []
  | fuel + 1, .seq a b, prev, s =>
      (reMatch fuel a prev s).flatMap (fun pr => reMatch fuel b pr.1 pr.2)
  | fuel + 1, .alt a b, prev, s => reMatch fuel a prev s ++ reMatch fuel b prev s
  | fuel + 1, .opt r, prev, s => reMatch fuel r prev s ++ [(prev, s)]
  | fuel + 1, .star r, prev, s =>
      ((reMatch fuel r prev s).filter (fun pr => pr.2.length < s.length)).flatMap
        (fun pr => reMatch fuel (.star r) pr.1 pr.2)
      ++ [(prev, s)]
  | fuel + 1, .plus r, prev, s =>
      (reMatch fuel r prev s).flatMap
        (fun pr =>
          if pr.2.length < s.length then reMatch fuel (.star r) pr.1 pr.2
          else [(pr.1, pr.2)])
  | _ + 1, .bol, prev, s =>
      if prev = Option.none || prev = Option.some '\n' then [(prev, s)] else []
  | _ + 1, .eol, prev, s =>
      if s.head? = Option.none || s.head? = Option.some '\n' then [(prev, s)] else []

/-- Global replacement: leftmost matches, the replacement inserted
verbatim, scanning resuming after each match (one character ahead on a
zero-length match, as the host does). -/
def reReplace (re : RE) (repl : List Char) : Nat → Option Char → List Char → List Char
  | 0, _, s => s
  | fuel + 1, prev, s =>
      match (reMatch ((s.length + 2) * (reSize re + 2)) re prev s).head? with
      | Option.some (p, rem) =>
          if s.length - rem.length = 0 then
            match s with
            | [] => repl
            | c :: t => repl ++ c :: reReplace re repl fuel (Option.some c) t
          else repl ++ reReplace re repl fuel p rem
      | Option.none =>
          match s with
          | [] => []
          | c :: t => c :: reReplace re repl fuel (Option.some c) t

/-- Lines 23-25 of the source: each table entry in order is compiled
(`new RegExp(key, 'gmi')` — the point where a malformed pattern throws)
and applied as a global substitution. -/
def tablePass : List (String × String) → String → Except TErr String
  | [], code => pure code
  | (k, v) :: rest, code =>
      match compilePattern k with
      | Option.none => .error (.invalidPattern k)
      | Option.some re =>
          tablePass rest
            (String.mk (reReplace re v.toList (code.toList.length + 1)
              Option.none code.toList))

/-- The Correction Pipeline, `RubyTranspiler.correct` (lines 22-86):
table substitutions, the `Math.floor` rewrite, the definition-block
rewrite, one call-site pass per recorded function, the `x++` rewrite,
and the `puts` stringification, in that order. -/
def correct (corrections : List (String × String)) (code : String) :
    Except TErr String := do
  let code ← tablePass corrections code
  let code := floorPass code
  let (code, funcs) := hofDefsPass code
  let code := mathPass funcs code
  let code := incrPass code
  pure (putsPass code)

/-- Translator state: the corrections table (loaded once by the
constructor) and the emission buffer (created once by `super()`). -/
structure RubyTranspiler where
  corrections : List (String × String)
  buffer : Buffer
deriving DecidableEq, Repr

/-- Modelled from the spec: the constructor.  The missing piece is the
configuration load (`JSON.parse(fs.readFileSync(...))`, line 9) — per
section 6 of the spec the parsed table is treated as an injected
parameter.  The constructor stores it and creates the buffer; it never
compiles or inspects any pattern. -/
def mkRubyTranspiler (tbl : List (String × String)) : RubyTranspiler :=
  ⟨tbl, Buffer.empty⟩

/-- `TranspilerSuper.clear` (line 181): replace the buffer with a fresh
one. -/
def RubyTranspiler.clear (t : RubyTranspiler) : RubyTranspiler :=
  { t with buffer := Buffer.empty }

/-- `RubyTranspiler.parse` (lines 12-15): dispatch the root on the
instance's buffer (which is *not* cleared first), then run the
Correction Pipeline over the buffer's entire text.  Returns the
corrected text together with the updated instance state and the root as
the traversal leaves it. -/
def RubyTranspiler.parse (tr : RubyTranspiler) (node : Node) :
    Except TErr (String × RubyTranspiler × Node) := do
  let (b, node2) ← recursiveParse tr.buffer node
  let out ← correct tr.corrections b.get
  pure (out, { tr with buffer := b }, node2)

example : compilePattern "(" = Option.none := rfl
example : compilePattern "[ab" = Option.none := rfl
example : (compilePattern "co?nsole\\.log").isSome = true := rfl
example : correct [] "puts(x)\n" = .ok "puts((x).to_s)\n" := rfl
example : hofDefsPass "def f(cb)\nreturn cb(1)\nend\n"
    = ("def f(cb)\nreturn cb.call(1)\nend\n", [("f", 0)]) := rfl
example : mathPass [("f", 0)] "x = mathematics(someFn, 2) + 1\n"
    = "x = mathematics(method(:someFn), 2) + 1\n" := rfl
example : tablePass [("console\\.log", "puts")] "console.log(x)\n"
    = .ok "puts(x)\n" := rfl


/-! ### General lemmas about the dispatch engine -/

theorem dropWhile_append_of_all {p : Char → Bool} :
    ∀ (a l : List Char), (∀ c ∈ a, p c) → (a ++ l).dropWhile p = l.dropWhile p
  | [], _, _ => rfl
  | c :: a, l, h => by
      have hc : p c := h c (by simp)
      simp only [List.cons_append, List.dropWhile_cons, hc, if_true]
      exact dropWhile_append_of_all a l (fun x hx => h x (by simp [hx]))

/-- Terminating the current line and trimming is the same as trimming:
the newline and the indentation it opens are trailing whitespace. -/
theorem trim_newline (b : Buffer) : b.newline.trim = b.trim := by
  simp only [Buffer.newline, Buffer.trim, List.reverse_append, List.reverse_cons]
  congr 1
  refine congrArg _ (dropWhile_append_of_all _ _ ?_)
  intro c hc
  simp only [List.mem_append, List.mem_reverse, List.mem_replicate, List.mem_singleton] at hc
  rcases hc with h | h
  · simp [isWS, h.2]
  · simp [isWS, h]

/-- Sequential dispatch distributes over list concatenation. -/
theorem parseNodes_append : ∀ (xs ys : NodeList) (b : Buffer),
    parseNodes b (xs.append ys) = do
      let (b1, xs2) ← parseNodes b xs
      let (b2, ys2) ← parseNodes b1 ys
      pure (b2, xs2.append ys2)
  | .nil, ys, b => by
      simp [NodeList.append, parseNodes, pure_bind]
  | .cons x xs, ys, b => by
      simp only [NodeList.append, parseNodes, parseNodes_append xs ys,
        bind_assoc, pure_bind]

/--
C4 : For every `for (init; test; update) body` with a block body, the
emitted text (and indentation state) is exactly that of the sequence
`init; while (test) { body; update }` — the initializer dispatched
first as a standalone statement, then a while-loop over the same test
whose block body is the original body with the update appended as a
final expression statement.
-/
theorem forStmt_desugars_to_while (i t u : Node) (ss : NodeList) (b : Buffer) :
    (do
      let (b2, _) ← recursiveParse b (.forStmt i t u (.blockStmt ss))
      pure b2 : Except TErr Buffer) =
      (do
        let (b1, _) ← recursiveParse b i
        let (b2, _) ← recursiveParse b1
          (.whileStmt t (.blockStmt (ss.append (.cons (.exprStmt u) .nil))))
        pure b2 : Except TErr Buffer) := by
  simp only [recursiveParse, parseNodes_append, parseNodes, bind_assoc, pure_bind,
    trim_newline]


/-! ### The tree after translation (frame effect) -/

/- What translation does to the caller's tree: the documented wrapping
of a non-block `if` consequent into a one-statement block, and — beyond
it — the `ForStatement` desugaring, which retags the node as a
while-loop and appends the update to its block body. -/
mutual
def normalize : Node → Node
  | .program l => .program (normalizeList l)
  | .exprStmt e => .exprStmt (normalize e)
  | .blockStmt l => .blockStmt (normalizeList l)
  | .ifStmt t c a =>
      .ifStmt (normalize t)
        (if c.isBlockStatement then normalize c
         else .blockStmt (.cons (normalize c) .nil))
        (normalizeOpt a)
  | .varDecl ds => .varDecl (normalizeList ds)
  | .varDeclarator i d => .varDeclarator (normalize i) (normalizeOpt d)
  | .returnStmt a => .returnStmt (normalizeOpt a)
  | .forStmt _i t u (.blockStmt ss) =>
      .whileStmt (normalize t)
        (.blockStmt ((normalizeList ss).append (.cons (normalize u) .nil)))
  | .forStmt i t u body =>
      .forStmt (normalize i) (normalize t) (normalize u) (normalize body)
  | .whileStmt t body => .whileStmt (normalize t) (normalize body)
  | .updateExpr op pre arg => .updateExpr op pre (normalize arg)
  | .binary op l r => .binary op (normalize l) (normalize r)
  | .call c args => .call (normalize c) (normalizeList args)
  | .ident n => .ident n
  | .numLit raw => .numLit raw
  | .strLit raw => .strLit raw
  | .unknown tag => .unknown tag
def normalizeList : NodeList → NodeList
  | .nil => .nil
  | .cons n t => .cons (normalize n) (normalizeList t)
def normalizeOpt : OptNode → OptNode
  | .none => .none
  | .some n => .some (normalize n)
end

/- The frame the claim permits, written from the spec's words (sections 3
and 6): every node unchanged, except that a non-block `if` consequent may
be wrapped into a one-statement block.  To be compared with `normalize`,
which is what the code actually does. -/
mutual
def wrapConsequentsOnly : Node → Node
  | .program l => .program (wrapConsequentsOnlyList l)
  | .exprStmt e => .exprStmt (wrapConsequentsOnly e)
  | .blockStmt l => .blockStmt (wrapConsequentsOnlyList l)
  | .ifStmt t c a =>
      .ifStmt (wrapConsequentsOnly t)
        (if c.isBlockStatement then wrapConsequentsOnly c
         else .blockStmt (.cons (wrapConsequentsOnly c) .nil))
        (wrapConsequentsOnlyOpt a)
  | .varDecl ds => .varDecl (wrapConsequentsOnlyList ds)
  | .varDeclarator i d =>
      .varDeclarator (wrapConsequentsOnly i) (wrapConsequentsOnlyOpt d)
  | .returnStmt a => .returnStmt (wrapConsequentsOnlyOpt a)
  | .forStmt i t u body =>
      .forStmt (wrapConsequentsOnly i) (wrapConsequentsOnly t)
        (wrapConsequentsOnly u) (wrapConsequentsOnly body)
  | .whileStmt t body => .whileStmt (wrapConsequentsOnly t) (wrapConsequentsOnly body)
  | .updateExpr op pre arg => .updateExpr op pre (wrapConsequentsOnly arg)
  | .binary op l r => .binary op (wrapConsequentsOnly l) (wrapConsequentsOnly r)
  | .call c args => .call (wrapConsequentsOnly c) (wrapConsequentsOnlyList args)
  | .ident n => .ident n
  | .numLit raw => .numLit raw
  | .strLit raw => .strLit raw
  | .unknown tag => .unknown tag
def wrapConsequentsOnlyList : NodeList → NodeList
  | .nil => .nil
  | .cons n t => .cons (wrapConsequentsOnly n) (wrapConsequentsOnlyList t)
def wrapConsequentsOnlyOpt : OptNode → OptNode
  | .none => .none
  | .some n => .some (wrapConsequentsOnly n)
end

theorem ebind_ok {α β : Type} {x : Except TErr α} {f : α → Except TErr β} {v : β} :
    (x >>= f) = Except.ok v ↔ ∃ a, x = Except.ok a ∧ f a = Except.ok v := by
  cases x <;> simp [Bind.bind, Except.bind]

theorem epure_ok {α : Type} {a v : α} :
    (pure a : Except TErr α) = Except.ok v ↔ a = v := by
  simp [pure, Except.pure]

theorem ok_bind {α β : Type} (a : α) (f : α → Except TErr β) :
    (Except.ok a >>= f) = f a := rfl

mutual
theorem recursiveParse_tree : ∀ (n : Node) (b b2 : Buffer) (n2 : Node),
    recursiveParse b n = .ok (b2, n2) → n2 = normalize n
  | .program l, b, b2, n2 => by
      intro h
      simp only [recursiveParse, ebind_ok, epure_ok] at h
      obtain ⟨⟨b1, l2⟩, h1, h2⟩ := h
      obtain ⟨-, rfl⟩ := Prod.mk.injEq .. ▸ h2
      simp [normalize, parseNodes_tree l _ _ _ h1]
  | .exprStmt e, b, b2, n2 => by
      intro h
      simp only [recursiveParse, ebind_ok, epure_ok] at h
      obtain ⟨⟨b1, e2⟩, h1, h2⟩ := h
      obtain ⟨-, rfl⟩ := Prod.mk.injEq .. ▸ h2
      simp [normalize, recursiveParse_tree e _ _ _ h1]
  | .blockStmt l, b, b2, n2 => by
      intro h
      simp only [recursiveParse, ebind_ok, epure_ok] at h
      obtain ⟨⟨b1, l2⟩, h1, h2⟩ := h
      obtain ⟨-, rfl⟩ := Prod.mk.injEq .. ▸ h2
      simp [normalize, parseNodes_tree l _ _ _ h1]
  | .ifStmt t c a, b, b2, n2 => by
      intro h
      simp only [recursiveParse, pure_bind] at h
      rw [ebind_ok] at h
      obtain ⟨⟨b1, t2⟩, h1, h⟩ := h
      have ht2 := recursiveParse_tree t _ _ _ h1
      split at h
      case isTrue hb =>
        rw [ebind_ok] at h
        obtain ⟨⟨bc, c2⟩, hc, h⟩ := h
        have hc2 := recursiveParse_tree c _ _ _ hc
        cases a with
        | none =>
            rw [epure_ok] at h
            obtain ⟨-, rfl⟩ := Prod.mk.injEq .. ▸ h
            simp [normalize, normalizeOpt, ht2, hc2, hb]
        | some al =>
            rw [ebind_ok] at h
            obtain ⟨⟨ba, a2⟩, ha, h⟩ := h
            rw [epure_ok] at h
            obtain ⟨-, rfl⟩ := Prod.mk.injEq .. ▸ h
            simp [normalize, normalizeOpt, ht2, hc2, hb,
              recursiveParse_tree al _ _ _ ha]
      case isFalse hb =>
        rw [ebind_ok] at h
        obtain ⟨⟨bc, c1⟩, hc, h⟩ := h
        have hc2 := recursiveParse_tree c _ _ _ hc
        cases a with
        | none =>
            rw [epure_ok] at h
            obtain ⟨-, rfl⟩ := Prod.mk.injEq .. ▸ h
            simp [normalize, normalizeOpt, ht2, hc2, hb]
        | some al =>
            rw [ebind_ok] at h
            obtain ⟨⟨ba, a2⟩, ha, h⟩ := h
            rw [epure_ok] at h
            obtain ⟨-, rfl⟩ := Prod.mk.injEq .. ▸ h
            simp [normalize, normalizeOpt, ht2, hc2, hb,
              recursiveParse_tree al _ _ _ ha]
  | .varDecl ds, b, b2, n2 => by
      intro h
      simp only [recursiveParse, ebind_ok, epure_ok] at h
      obtain ⟨⟨b1, l2⟩, h1, h2⟩ := h
      obtain ⟨-, rfl⟩ := Prod.mk.injEq .. ▸ h2
      simp [normalize, parseNodes_tree ds _ _ _ h1]
  | .varDeclarator i d, b, b2, n2 => by
      intro h
      simp only [recursiveParse] at h
      rw [ebind_ok] at h
      obtain ⟨⟨b1, i2⟩, h1, h⟩ := h
      cases d with
      | none =>
          rw [epure_ok] at h
          obtain ⟨-, rfl⟩ := Prod.mk.injEq .. ▸ h
          simp [normalize, normalizeOpt, recursiveParse_tree i _ _ _ h1]
      | some e =>
          rw [ebind_ok] at h
          obtain ⟨⟨be, e2⟩, he, h⟩ := h
          rw [epure_ok] at h
          obtain ⟨-, rfl⟩ := Prod.mk.injEq .. ▸ h
          simp [normalize, normalizeOpt, recursiveParse_tree i _ _ _ h1,
            recursiveParse_tree e _ _ _ he]
  | .returnStmt a, b, b2, n2 => by
      intro h
      cases a with
      | none =>
          simp only [recursiveParse, epure_ok] at h
          obtain ⟨-, rfl⟩ := Prod.mk.injEq .. ▸ h
          simp [normalize, normalizeOpt]
      | some e =>
          simp only [recursiveParse, ebind_ok, epure_ok] at h
          obtain ⟨⟨be, e2⟩, he, h⟩ := h
          obtain ⟨-, rfl⟩ := Prod.mk.injEq .. ▸ h
          simp [normalize, normalizeOpt, recursiveParse_tree e _ _ _ he]
  | .forStmt i t u (.blockStmt ss), b, b2, n2 => by
      intro h
      simp only [recursiveParse] at h
      rw [ebind_ok] at h
      obtain ⟨⟨b1, i2⟩, h1, h⟩ := h
      rw [ebind_ok] at h
      obtain ⟨⟨bt, t2⟩, ht, h⟩ := h
      rw [ebind_ok] at h
      obtain ⟨⟨bs, ss2⟩, hss, h⟩ := h
      rw [ebind_ok] at h
      obtain ⟨⟨bu, u2⟩, hu, h⟩ := h
      rw [epure_ok] at h
      obtain ⟨-, rfl⟩ := Prod.mk.injEq .. ▸ h
      simp [normalize, recursiveParse_tree t _ _ _ ht,
        parseNodes_tree ss _ _ _ hss, recursiveParse_tree u _ _ _ hu]
  | .forStmt i t u (.program l), b, b2, n2 => by
      intro h
      simp only [recursiveParse] at h
      rw [ebind_ok] at h
      obtain ⟨⟨b1, i2⟩, h1, h⟩ := h
      exact absurd h (by simp)
  | .forStmt i t u (.exprStmt e), b, b2, n2 => by
      intro h
      simp only [recursiveParse] at h
      rw [ebind_ok] at h
      obtain ⟨⟨b1, i2⟩, h1, h⟩ := h
      exact absurd h (by simp)
  | .forStmt i t u (.ifStmt q w r), b, b2, n2 => by
      intro h
      simp only [recursiveParse] at h
      rw [ebind_ok] at h
      obtain ⟨⟨b1, i2⟩, h1, h⟩ := h
      exact absurd h (by simp)
  | .forStmt i t u (.varDecl l), b, b2, n2 => by
      intro h
      simp only [recursiveParse] at h
      rw [ebind_ok] at h
      obtain ⟨⟨b1, i2⟩, h1, h⟩ := h
      exact absurd h (by simp)
  | .forStmt i t u (.varDeclarator q w), b, b2, n2 => by
      intro h
      simp only [recursiveParse] at h
      rw [ebind_ok] at h
      obtain ⟨⟨b1, i2⟩, h1, h⟩ := h
      exact absurd h (by simp)
  | .forStmt i t u (.returnStmt q), b, b2, n2 => by
      intro h
      simp only [recursiveParse] at h
      rw [ebind_ok] at h
      obtain ⟨⟨b1, i2⟩, h1, h⟩ := h
      exact absurd h (by simp)
  | .forStmt i t u (.forStmt q w e r), b, b2, n2 => by
      intro h
      simp only [recursiveParse] at h
      rw [ebind_ok] at h
      obtain ⟨⟨b1, i2⟩, h1, h⟩ := h
      exact absurd h (by simp)
  | .forStmt i t u (.whileStmt q w), b, b2, n2 => by
      intro h
      simp only [recursiveParse] at h
      rw [ebind_ok] at h
      obtain ⟨⟨b1, i2⟩, h1, h⟩ := h
      exact absurd h (by simp)
  | .forStmt i t u (.updateExpr q w e), b, b2, n2 => by
      intro h
      simp only [recursiveParse] at h
      rw [ebind_ok] at h
      obtain ⟨⟨b1, i2⟩, h1, h⟩ := h
      exact absurd h (by simp)
  | .forStmt i t u (.binary q w e), b, b2, n2 => by
      intro h
      simp only [recursiveParse] at h
      rw [ebind_ok] at h
      obtain ⟨⟨b1, i2⟩, h1, h⟩ := h
      exact absurd h (by simp)
  | .forStmt i t u (.call q w), b, b2, n2 => by
      intro h
      simp only [recursiveParse] at h
      rw [ebind_ok] at h
      obtain ⟨⟨b1, i2⟩, h1, h⟩ := h
      exact absurd h (by simp)
  | .forStmt i t u (.ident q), b, b2, n2 => by
      intro h
      simp only [recursiveParse] at h
      rw [ebind_ok] at h
      obtain ⟨⟨b1, i2⟩, h1, h⟩ := h
      exact absurd h (by simp)
  | .forStmt i t u (.numLit q), b, b2, n2 => by
      intro h
      simp only [recursiveParse] at h
      rw [ebind_ok] at h
      obtain ⟨⟨b1, i2⟩, h1, h⟩ := h
      exact absurd h (by simp)
  | .forStmt i t u (.strLit q), b, b2, n2 => by
      intro h
      simp only [recursiveParse] at h
      rw [ebind_ok] at h
      obtain ⟨⟨b1, i2⟩, h1, h⟩ := h
      exact absurd h (by simp)
  | .forStmt i t u (.unknown q), b, b2, n2 => by
      intro h
      simp only [recursiveParse] at h
      rw [ebind_ok] at h
      obtain ⟨⟨b1, i2⟩, h1, h⟩ := h
      exact absurd h (by simp)
  | .whileStmt t body, b, b2, n2 => by
      intro h
      simp only [recursiveParse, ebind_ok, epure_ok] at h
      obtain ⟨⟨b1, t2⟩, h1, ⟨⟨bb, body2⟩, hb, h2⟩⟩ := h
      obtain ⟨-, rfl⟩ := Prod.mk.injEq .. ▸ h2
      simp [normalize, recursiveParse_tree t _ _ _ h1,
        recursiveParse_tree body _ _ _ hb]
  | .updateExpr op pre arg, b, b2, n2 => by
      intro h
      simp only [recursiveParse, ebind_ok, epure_ok] at h
      obtain ⟨⟨b1, a2⟩, h1, h2⟩ := h
      obtain ⟨-, rfl⟩ := Prod.mk.injEq .. ▸ h2
      simp [normalize, recursiveParse_tree arg _ _ _ h1]
  | .binary op l r, b, b2, n2 => by
      intro h
      simp only [recursiveParse, pure_bind] at h
      split at h
      all_goals (
        rw [ebind_ok] at h
        obtain ⟨⟨b1, l2⟩, hL, h⟩ := h
        have ihL := recursiveParse_tree l _ _ _ hL
        split at h
        all_goals (
          rw [ebind_ok] at h
          obtain ⟨⟨b3, r2⟩, hR, h⟩ := h
          have ihR := recursiveParse_tree r _ _ _ hR
          rw [epure_ok] at h
          obtain ⟨-, rfl⟩ := Prod.mk.injEq .. ▸ h
          simp [normalize, ihL, ihR]))
  | .call callee .nil, b, b2, n2 => by
      intro h
      simp only [recursiveParse, pure_bind] at h
      rw [ebind_ok] at h
      obtain ⟨⟨b1, c2⟩, h1, h2⟩ := h
      rw [epure_ok] at h2
      obtain ⟨-, rfl⟩ := Prod.mk.injEq .. ▸ h2
      simp [normalize, normalizeList, recursiveParse_tree callee _ _ _ h1]
  | .call callee (.cons a rest), b, b2, n2 => by
      intro h
      simp only [recursiveParse, pure_bind] at h
      rw [ebind_ok] at h
      obtain ⟨⟨b1, c2⟩, h1, h⟩ := h
      rw [ebind_ok] at h
      obtain ⟨⟨ba, a2⟩, ha, h⟩ := h
      rw [ebind_ok] at h
      obtain ⟨⟨br, rest2⟩, hr, h⟩ := h
      rw [epure_ok] at h
      obtain ⟨-, rfl⟩ := Prod.mk.injEq .. ▸ h
      simp [normalize, normalizeList, recursiveParse_tree callee _ _ _ h1,
        recursiveParse_tree a _ _ _ ha, parseArgsTail_tree rest _ _ _ hr]
  | .ident nm, b, b2, n2 => by
      intro h
      simp only [recursiveParse, epure_ok] at h
      obtain ⟨-, rfl⟩ := Prod.mk.injEq .. ▸ h
      simp [normalize]
  | .numLit raw, b, b2, n2 => by
      intro h
      simp only [recursiveParse, epure_ok] at h
      obtain ⟨-, rfl⟩ := Prod.mk.injEq .. ▸ h
      simp [normalize]
  | .strLit raw, b, b2, n2 => by
      intro h
      simp only [recursiveParse, epure_ok] at h
      obtain ⟨-, rfl⟩ := Prod.mk.injEq .. ▸ h
      simp [normalize]
  | .unknown tag, b, b2, n2 => by
      intro h
      exact Except.noConfusion h
theorem parseNodes_tree : ∀ (l : NodeList) (b b2 : Buffer) (l2 : NodeList),
    parseNodes b l = .ok (b2, l2) → l2 = normalizeList l
  | .nil, b, b2, l2 => by
      intro h
      simp only [parseNodes, epure_ok] at h
      obtain ⟨-, rfl⟩ := Prod.mk.injEq .. ▸ h
      simp [normalizeList]
  | .cons n t, b, b2, l2 => by
      intro h
      simp only [parseNodes, ebind_ok, epure_ok] at h
      obtain ⟨⟨b1, n2⟩, h1, ⟨⟨bt, t2⟩, ht, h2⟩⟩ := h
      obtain ⟨-, rfl⟩ := Prod.mk.injEq .. ▸ h2
      simp [normalizeList, recursiveParse_tree n _ _ _ h1,
        parseNodes_tree t _ _ _ ht]
theorem parseArgsTail_tree : ∀ (l : NodeList) (b b2 : Buffer) (l2 : NodeList),
    parseArgsTail b l = .ok (b2, l2) → l2 = normalizeList l
  | .nil, b, b2, l2 => by
      intro h
      simp only [parseArgsTail, epure_ok] at h
      obtain ⟨-, rfl⟩ := Prod.mk.injEq .. ▸ h
      simp [normalizeList]
  | .cons n t, b, b2, l2 => by
      intro h
      simp only [parseArgsTail, ebind_ok, epure_ok] at h
      obtain ⟨⟨b1, n2⟩, h1, ⟨⟨bt, t2⟩, ht, h2⟩⟩ := h
      obtain ⟨-, rfl⟩ := Prod.mk.injEq .. ▸ h2
      simp [normalizeList, recursiveParse_tree n _ _ _ h1,
        parseArgsTail_tree t _ _ _ ht]
end


/-! ### Expression rendering is buffer-local -/

/- Expression-kind subtrees: the node kinds whose operations only ever
append to the current line (never newline, indent or line deletion). -/
mutual
def exprOnly : Node → Bool
  | .updateExpr _ _ arg => exprOnly arg
  | .binary _ l r => exprOnly l && exprOnly r
  | .call c args => exprOnly c && exprOnlyList args
  | .ident _ => true
  | .numLit _ => true
  | .strLit _ => true
  | _ => false
def exprOnlyList : NodeList → Bool
  | .nil => true
  | .cons n t => exprOnly n && exprOnlyList t
end

/-- Text component of a dispatch result (empty on failure). -/
def outText {α : Type} : Except TErr (Buffer × α) → List Char
  | .ok p => p.1.text
  | .error _ => []

/-- The text a node's dispatch produces on a fresh buffer. -/
def emitted (n : Node) : List Char := outText (recursiveParse Buffer.empty n)

/-- The text a call-argument tail produces on a fresh buffer (each
argument preceded by `", "`). -/
def emittedTail (l : NodeList) : List Char := outText (parseArgsTail Buffer.empty l)

mutual
theorem recursiveParse_expr_local : ∀ (n : Node), exprOnly n = true → ∀ (b : Buffer),
    recursiveParse b n = .ok (⟨b.text ++ emitted n, b.ind⟩, n)
  | .program l => by intro h; exact Bool.noConfusion h
  | .exprStmt e => by intro h; exact Bool.noConfusion h
  | .blockStmt l => by intro h; exact Bool.noConfusion h
  | .ifStmt t c a => by intro h; exact Bool.noConfusion h
  | .varDecl l => by intro h; exact Bool.noConfusion h
  | .varDeclarator i d => by intro h; exact Bool.noConfusion h
  | .returnStmt a => by intro h; exact Bool.noConfusion h
  | .forStmt i t u body => by intro h; exact Bool.noConfusion h
  | .whileStmt t body => by intro h; exact Bool.noConfusion h
  | .unknown tag => by intro h; exact Bool.noConfusion h
  | .ident nm => by
      intro _ b
      simp only [emitted]
      simp [recursiveParse, outText, Buffer.add, Buffer.empty, pure, Except.pure]
  | .numLit raw => by
      intro _ b
      simp only [emitted]
      simp [recursiveParse, outText, Buffer.add, Buffer.empty, pure, Except.pure]
  | .strLit raw => by
      intro _ b
      simp only [emitted]
      simp [recursiveParse, outText, Buffer.add, Buffer.empty, pure, Except.pure]
  | .updateExpr op pre arg => by
      intro h b
      have ha : exprOnly arg = true := h
      have ih := recursiveParse_expr_local arg ha
      simp only [emitted]
      cases pre with
      | true =>
          simp [recursiveParse, outText, ih, Buffer.add, Buffer.empty, pure_bind, ok_bind,
            pure, Except.pure]
      | false =>
          simp [recursiveParse, outText, ih, Buffer.add, Buffer.empty, pure_bind, ok_bind,
            pure, Except.pure]
  | .binary op l r => by
      intro h b
      obtain ⟨hl, hr⟩ := Bool.and_eq_true .. ▸ h
      have ihl := recursiveParse_expr_local l hl
      have ihr := recursiveParse_expr_local r hr
      simp only [emitted]
      cases hbl : l.isBinaryExpression <;> cases hbr : r.isBinaryExpression <;>
        simp [recursiveParse, outText, hbl, hbr, ihl, ihr, Buffer.add,
          Buffer.empty, pure_bind, ok_bind, pure, Except.pure]
  | .call callee .nil => by
      intro h b
      have hc : exprOnly callee = true := by
        have h2 := Bool.and_eq_true .. ▸ h
        exact h2.1
      have ih := recursiveParse_expr_local callee hc
      simp only [emitted]
      simp [recursiveParse, outText, ih, Buffer.add, Buffer.empty, pure_bind, ok_bind,
        pure, Except.pure]
  | .call callee (.cons a rest) => by
      intro h b
      have h2 := Bool.and_eq_true .. ▸ h
      obtain ⟨hc, hargs⟩ := h2
      have h3 := Bool.and_eq_true .. ▸ hargs
      obtain ⟨ha, hrest⟩ := h3
      have ihc := recursiveParse_expr_local callee hc
      have iha := recursiveParse_expr_local a ha
      have ihr := parseArgsTail_expr_local rest hrest
      simp only [emitted, emittedTail]
      simp [recursiveParse, outText, ihc, iha, ihr, Buffer.add, Buffer.empty,
        pure_bind, ok_bind, pure, Except.pure]
theorem parseArgsTail_expr_local : ∀ (l : NodeList), exprOnlyList l = true →
    ∀ (b : Buffer), parseArgsTail b l = .ok (⟨b.text ++ emittedTail l, b.ind⟩, l)
  | .nil => by
      intro _ b
      simp only [emittedTail]
      simp [parseArgsTail, outText, Buffer.empty, pure, Except.pure]
  | .cons n t => by
      intro h b
      have h2 := Bool.and_eq_true .. ▸ h
      obtain ⟨hn, ht⟩ := h2
      have ihn := recursiveParse_expr_local n hn
      have iht := parseArgsTail_expr_local t ht
      simp only [emitted, emittedTail]
      simp [parseArgsTail, outText, ihn, iht, Buffer.add, Buffer.empty,
        pure_bind, ok_bind, pure, Except.pure]
end


/-! ### The increment rewrite, in general -/

/-- A textual occurrence of a postfix increment: a word character
immediately followed by `++`. -/
def hasPostfixIncr : List Char → Bool
  | a :: b :: c :: t => (isWordChar a && b == '+' && c == '+') || hasPostfixIncr (b :: c :: t)
  | _ => false

/-- Three consecutive `+` characters somewhere in the text. -/
def hasTriplePlus : List Char → Bool
  | a :: b :: c :: t => (a == '+' && b == '+' && c == '+') || hasTriplePlus (b :: c :: t)
  | _ => false

/-- Does the text begin with `++`? -/
def startsPP (l : List Char) : Bool :=
  l.head? == Option.some '+' && l.tail.head? == Option.some '+'

theorem wordChar_ne_plus {c : Char} (h : isWordChar c = true) : (c == '+') = false := by
  by_cases hc : c = '+'
  · subst hc; exact absurd h (by decide)
  · simp [hc]

theorem incrGo_nil : incrGo [] = [] := by rw [incrGo]

theorem incrGo_cons (c : Char) (t : List Char) :
    incrGo (c :: t) = if isWordChar c then incrRun [c] t else c :: incrGo t := by
  rw [incrGo.eq_def]

theorem incrRun_nil (run : List Char) : incrRun run [] = run.reverse := by
  rw [incrRun]

theorem incrRun_word {c : Char} (h : isWordChar c = true) (run t) :
    incrRun run (c :: t) = incrRun (c :: run) t := by
  rw [incrRun.eq_def]
  simp [h]

theorem incrRun_single {c : Char} (h : isWordChar c = false) (run) :
    incrRun run [c] = run.reverse ++ [c] := by
  rw [incrRun.eq_def]
  simp [h]

theorem incrRun_pp (run t2) :
    incrRun run ('+' :: '+' :: t2)
      = run.reverse ++ ((" += 1").toList ++ incrGo t2) := by
  rw [incrRun.eq_def]
  norm_num [show isWordChar '+' = false from rfl]

theorem incrRun_nonpp {c t0 : Char} (hw : isWordChar c = false)
    (hnp : ¬(c = '+' ∧ t0 = '+')) (run t2) :
    incrRun run (c :: t0 :: t2) = run.reverse ++ c :: incrGo (t0 :: t2) := by
  rw [incrRun.eq_def]
  have hcond : ¬((c = '+' && t0 = '+') = true) := by
    simpa [Bool.and_eq_true, decide_eq_true_eq] using hnp
  simp [hw, hcond]

theorem incrRun_prefix (s : List Char) : ∀ run : List Char,
    ∃ rest, incrRun run s = run.reverse ++ rest := by
  induction s with
  | nil => intro run; exact ⟨[], by rw [incrRun_nil]; simp⟩
  | cons c t ih =>
      intro run
      by_cases hw : isWordChar c
      · obtain ⟨r, hr⟩ := ih (c :: run)
        exact ⟨c :: r, by rw [incrRun_word hw, hr]; simp⟩
      · have hw' : isWordChar c = false := by simpa using hw
        cases t with
        | nil => exact ⟨[c], incrRun_single hw' run⟩
        | cons t0 t2 =>
            by_cases hpp : c = '+' ∧ t0 = '+'
            · obtain ⟨h1, h2⟩ := hpp
              subst h1; subst h2
              exact ⟨(" += 1").toList ++ incrGo t2, incrRun_pp run t2⟩
            · exact ⟨c :: incrGo (t0 :: t2), incrRun_nonpp hw' hpp run t2⟩

theorem incrGo_head : ∀ s : List Char, (incrGo s).head? = s.head?
  | [] => rfl
  | c :: t => by
      by_cases hw : isWordChar c
      · obtain ⟨r, hr⟩ := incrRun_prefix t [c]
        simp [incrGo_cons, hw, hr]
      · simp [incrGo_cons, hw]

/-- A window beginning at a non-word character contributes nothing. -/
theorem hasPostfixIncr_cons_nonword {c : Char} (hc : isWordChar c = false) :
    ∀ l : List Char, hasPostfixIncr (c :: l) = hasPostfixIncr l
  | [] => by simp [hasPostfixIncr]
  | [y] => by simp [hasPostfixIncr]
  | y :: z :: t => by simp [hasPostfixIncr, hc]

/-- Prepending a run of word characters adds no occurrence so long as the
rest does not begin with `++`. -/
theorem hasPostfixIncr_word_prefix : ∀ (w rest : List Char),
    (∀ c ∈ w, isWordChar c = true) → startsPP rest = false →
    hasPostfixIncr (w ++ rest) = hasPostfixIncr rest
  | [], rest, _, _ => rfl
  | [x], rest, hw, hr => by
      cases rest with
      | nil => simp [hasPostfixIncr]
      | cons y t =>
          cases t with
          | nil => simp [hasPostfixIncr]
          | cons z t2 =>
              have hyz : (y == '+' && z == '+') = false := by
                simpa [startsPP] using hr
              simp only [List.singleton_append, hasPostfixIncr, Bool.and_assoc, hyz,
                Bool.and_false, Bool.false_or]
  | x1 :: x2 :: w', rest, hw, hr => by
      have hx2 : isWordChar x2 = true := hw x2 (by simp)
      have ih := hasPostfixIncr_word_prefix (x2 :: w') rest
        (fun c hc => hw c (by simp [List.mem_cons] at hc ⊢; tauto)) hr
      cases hL : w' ++ rest with
      | nil =>
          obtain ⟨hw', hrest⟩ := List.append_eq_nil.mp hL
          subst hw'; subst hrest
          simp [hasPostfixIncr]
      | cons y L' =>
          have h2 := wordChar_ne_plus hx2
          calc hasPostfixIncr (x1 :: x2 :: w' ++ rest)
              = hasPostfixIncr (x1 :: x2 :: y :: L') := by
                rw [List.cons_append, List.cons_append, hL]
            _ = hasPostfixIncr (x2 :: y :: L') := by
                simp [hasPostfixIncr, h2]
            _ = hasPostfixIncr (x2 :: (w' ++ rest)) := by rw [hL]
            _ = hasPostfixIncr rest := by
                have hsh : x2 :: (w' ++ rest) = (x2 :: w') ++ rest := by simp
                rw [hsh, ih]

theorem hasTriplePlus_tail : ∀ (c : Char) (t : List Char),
    hasTriplePlus (c :: t) = false → hasTriplePlus t = false
  | _, [], _ => rfl
  | _, [_], _ => rfl
  | c, y :: z :: t2, h => by
      simp only [hasTriplePlus, Bool.or_eq_false_iff] at h
      exact h.2

/-- The inserted ` += 1` text introduces no occurrence, provided what
follows does not begin with `++` and itself has none. -/
theorem hasPostfixIncr_incrRepl (rest : List Char) (hs : startsPP rest = false)
    (h : hasPostfixIncr rest = false) :
    hasPostfixIncr ((" += 1").toList ++ rest) = false := by
  cases rest with
  | nil => decide
  | cons r0 rt =>
      cases rt with
      | nil =>
          have he : (" += 1").toList ++ [r0] = [' ', '+', '=', ' ', '1', r0] := rfl
          rw [he]
          simp [hasPostfixIncr, show isWordChar ' ' = false from rfl,
            show isWordChar '+' = false from rfl, show isWordChar '=' = false from rfl]
      | cons r1 rt2 =>
          have he : (" += 1").toList ++ (r0 :: r1 :: rt2)
              = ' ' :: '+' :: '=' :: ' ' :: '1' :: r0 :: r1 :: rt2 := rfl
          rw [he]
          have hss : (r0 == '+' && r1 == '+') = false := by
            simpa [startsPP] using hs
          rw [hasPostfixIncr_cons_nonword (show isWordChar ' ' = false from rfl),
            hasPostfixIncr_cons_nonword (show isWordChar '+' = false from rfl),
            hasPostfixIncr_cons_nonword (show isWordChar '=' = false from rfl),
            hasPostfixIncr_cons_nonword (show isWordChar ' ' = false from rfl)]
          simp [hasPostfixIncr, Bool.and_assoc, hss, h]

mutual
theorem incrGo_noPP : ∀ s : List Char, hasTriplePlus s = false →
    hasPostfixIncr (incrGo s) = false
  | [], _ => rfl
  | c :: t, h => by
      by_cases hw : isWordChar c
      · rw [incrGo_cons, if_pos hw]
        exact incrRun_noPP t [c] (by simp) (by simpa using hw)
          (hasTriplePlus_tail _ _ h)
      · have hw' : isWordChar c = false := by simpa using hw
        rw [incrGo_cons, if_neg hw, hasPostfixIncr_cons_nonword hw']
        exact incrGo_noPP t (hasTriplePlus_tail _ _ h)
theorem incrRun_noPP : ∀ (s run : List Char), run ≠ [] →
    (∀ c ∈ run, isWordChar c = true) → hasTriplePlus s = false →
    hasPostfixIncr (incrRun run s) = false
  | [], run, hne, hrun, _ => by
      rw [incrRun_nil,
        show run.reverse = run.reverse ++ [] by simp,
        hasPostfixIncr_word_prefix run.reverse []
          (fun c hc => hrun c (List.mem_reverse.mp hc)) rfl]
      rfl
  | c :: t, run, hne, hrun, h => by
      by_cases hw : isWordChar c
      · rw [incrRun_word hw]
        exact incrRun_noPP t (c :: run) (by simp)
          (by
            intro x hx
            rcases List.mem_cons.mp hx with hx | hx
            · subst hx; exact hw
            · exact hrun x hx)
          (hasTriplePlus_tail _ _ h)
      · have hw' : isWordChar c = false := by simpa using hw
        cases t with
        | nil =>
            rw [incrRun_single hw',
              hasPostfixIncr_word_prefix run.reverse [c]
                (fun x hx => hrun x (List.mem_reverse.mp hx)) (by simp [startsPP])]
            rfl
        | cons t0 t2 =>
            by_cases hpp : c = '+' ∧ t0 = '+'
            · obtain ⟨hc, ht0⟩ := hpp
              subst hc; subst ht0
              have h2 : hasTriplePlus t2 = false :=
                hasTriplePlus_tail _ _ (hasTriplePlus_tail _ _ h)
              have hhd : t2.head? ≠ Option.some '+' := by
                cases t2 with
                | nil => simp
                | cons u tt =>
                    intro hu
                    simp only [List.head?_cons, Option.some.injEq] at hu
                    subst hu
                    simp [hasTriplePlus] at h
              have hspp : startsPP (incrGo t2) = false := by
                rw [startsPP, incrGo_head t2]
                cases ht2 : t2.head? with
                | none => simp
                | some u =>
                    have hu : u ≠ '+' := fun hu => hhd (by rw [ht2, hu])
                    simp [hu]
              rw [incrRun_pp,
                hasPostfixIncr_word_prefix run.reverse _
                  (fun x hx => hrun x (List.mem_reverse.mp hx)) (by simp [startsPP])]
              exact hasPostfixIncr_incrRepl (incrGo t2) hspp
                (incrGo_noPP t2 h2)
            · have htail : hasPostfixIncr (incrGo (t0 :: t2)) = false :=
                incrGo_noPP (t0 :: t2) (hasTriplePlus_tail _ _ h)
              have hspp : startsPP (c :: incrGo (t0 :: t2)) = false := by
                by_cases hc : c = '+'
                · subst hc
                  have ht0 : t0 ≠ '+' := fun h0 => hpp ⟨rfl, h0⟩
                  rw [startsPP]
                  simp only [List.head?_cons, List.tail_cons]
                  rw [incrGo_head (t0 :: t2)]
                  simp [ht0]
                · simp [startsPP, hc]
              rw [incrRun_nonpp hw' hpp,
                show run.reverse ++ c :: incrGo (t0 :: t2)
                  = run.reverse ++ (c :: incrGo (t0 :: t2)) from rfl,
                hasPostfixIncr_word_prefix run.reverse _
                  (fun x hx => hrun x (List.mem_reverse.mp hx)) hspp,
                hasPostfixIncr_cons_nonword hw']
              exact htail
end


mutual
theorem incrGo_append_safe : ∀ (a s : List Char) (c0 : Char),
    a.getLast? = Option.some c0 → isWordChar c0 = false → c0 ≠ '+' →
    incrGo (a ++ s) = incrGo a ++ incrGo s
  | [], _, _, hl, _, _ => by simp at hl
  | [c], s, c0, hl, hw, hp => by
      simp only [List.getLast?_singleton, Option.some.injEq] at hl
      subst hl
      rw [List.singleton_append, incrGo_cons, if_neg (by simp [hw]),
        incrGo_cons, if_neg (by simp [hw]), incrGo_nil]
      simp
  | c :: a0 :: a1, s, c0, hl, hw, hp => by
      have hl2 : (a0 :: a1).getLast? = Option.some c0 := by
        simpa [List.getLast?_cons_cons] using hl
      by_cases hwc : isWordChar c
      · rw [List.cons_append, incrGo_cons, if_pos hwc, incrGo_cons, if_pos hwc]
        exact incrRun_append_safe (a0 :: a1) s [c] c0 hl2 hw hp
      · rw [List.cons_append, incrGo_cons, if_neg hwc, incrGo_cons, if_neg hwc,
          incrGo_append_safe (a0 :: a1) s c0 hl2 hw hp]
        simp
theorem incrRun_append_safe : ∀ (a s run : List Char) (c0 : Char),
    a.getLast? = Option.some c0 → isWordChar c0 = false → c0 ≠ '+' →
    incrRun run (a ++ s) = incrRun run a ++ incrGo s
  | [], _, _, _, hl, _, _ => by simp at hl
  | [c], s, run, c0, hl, hw, hp => by
      simp only [List.getLast?_singleton, Option.some.injEq] at hl
      subst hl
      cases s with
      | nil => rw [List.append_nil, incrGo_nil, List.append_nil]
      | cons s0 s2 =>
          rw [show [c] ++ (s0 :: s2) = c :: s0 :: s2 from rfl,
            incrRun_nonpp hw (fun hx => hp hx.1) run s2,
            incrRun_single hw run]
          simp
  | c :: a0 :: a1, s, run, c0, hl, hw, hp => by
      have hl2 : (a0 :: a1).getLast? = Option.some c0 := by
        simpa [List.getLast?_cons_cons] using hl
      by_cases hwc : isWordChar c
      · rw [List.cons_append, incrRun_word hwc, incrRun_word hwc]
        exact incrRun_append_safe (a0 :: a1) s (c :: run) c0 hl2 hw hp
      · have hwc2 : isWordChar c = false := by simpa using hwc
        by_cases hpp : c = '+' ∧ a0 = '+'
        · obtain ⟨h1, h2⟩ := hpp
          subst h1; subst h2
          cases a1 with
          | nil =>
              simp only [List.getLast?_singleton, Option.some.injEq] at hl2
              exact absurd hl2.symm hp
          | cons b1 a2 =>
              have hl3 : (b1 :: a2).getLast? = Option.some c0 := by
                simpa [List.getLast?_cons_cons] using hl2
              rw [List.cons_append, List.cons_append, incrRun_pp, incrRun_pp,
                incrGo_append_safe (b1 :: a2) s c0 hl3 hw hp]
              simp
        · rw [List.cons_append, List.cons_append,
            incrRun_nonpp hwc2 hpp run (a1 ++ s),
            incrRun_nonpp hwc2 hpp run a1,
            show a0 :: (a1 ++ s) = (a0 :: a1) ++ s from rfl,
            incrGo_append_safe (a0 :: a1) s c0 hl2 hw hp]
          simp
end

theorem incrRun_words_pp : ∀ (w run s : List Char),
    (∀ c ∈ w, isWordChar c = true) →
    incrRun run (w ++ '+' :: '+' :: s)
      = run.reverse ++ (w ++ (" += 1").toList ++ incrGo s)
  | [], run, s, _ => by rw [List.nil_append, incrRun_pp]; simp
  | c :: w2, run, s, hw => by
      have hwc : isWordChar c = true := hw c (by simp)
      rw [List.cons_append, incrRun_word hwc,
        incrRun_words_pp w2 (c :: run) s (fun x hx => hw x (by simp [hx]))]
      simp

theorem incrGo_words_pp : ∀ (w s : List Char), w ≠ [] →
    (∀ c ∈ w, isWordChar c = true) →
    incrGo (w ++ '+' :: '+' :: s) = w ++ (" += 1").toList ++ incrGo s
  | [], _, hne, _ => absurd rfl hne
  | c :: w2, s, _, hw => by
      have hwc := hw c (by simp)
      rw [List.cons_append, incrGo_cons, if_pos hwc,
        incrRun_words_pp w2 [c] s (fun x hx => hw x (by simp [hx]))]
      simp

/--
C8 : The increment rewrite replaces every postfix increment — a nonempty
word run `w` immediately followed by `++`, preceded by nothing or by a
non-word, non-`+` character — by `w += 1` in place, and on any text
without three consecutive `+` characters its output contains no word
character followed by `++` at all (so no `++` token attributable to a
postfix increment survives the pass).
-/
theorem postfix_increment_rewrite :
    (∀ (a w s : List Char),
        (a = [] ∨ ∃ c0, a.getLast? = Option.some c0 ∧ isWordChar c0 = false ∧ c0 ≠ '+') →
        w ≠ [] → (∀ c ∈ w, isWordChar c = true) →
        incrPass (String.mk (a ++ w ++ '+' :: '+' :: s))
          = String.mk (incrGo a ++ (w ++ (" += 1").toList ++ incrGo s)))
    ∧ (∀ s : List Char, hasTriplePlus s = false →
        hasPostfixIncr (incrPass (String.mk s)).toList = false) := by
  constructor
  · intro a w s ha hwne hall
    rcases ha with rfl | ⟨c0, hl, hw0, hp0⟩
    · simp only [incrPass, List.nil_append]
      rw [show (String.mk (w ++ '+' :: '+' :: s)).toList = w ++ '+' :: '+' :: s from rfl,
        incrGo_words_pp w s hwne hall, incrGo_nil]
      rfl
    · simp only [incrPass]
      rw [show (String.mk (a ++ w ++ '+' :: '+' :: s)).toList
            = a ++ w ++ '+' :: '+' :: s from rfl,
        List.append_assoc, incrGo_append_safe a _ c0 hl hw0 hp0,
        incrGo_words_pp w s hwne hall]
  · intro s h
    simp only [incrPass]
    rw [show (String.mk (incrGo ((String.mk s).toList))).toList
          = incrGo s from rfl]
    exact incrGo_noPP s h

/-- Witness for C8 at a concrete statement `y = x++` and a concrete
increment-free check. -/
theorem postfix_increment_rewrite_witness :
    incrPass "y = x++\n" = "y = x += 1\n"
    ∧ hasPostfixIncr (incrPass "f(i++)\n").toList = false := by
  constructor
  · exact postfix_increment_rewrite.1 ("y = ").toList ("x").toList ("\n").toList
      (Or.inr ⟨' ', by decide, by decide, by decide⟩) (by decide) (by decide)
  · exact postfix_increment_rewrite.2 ("f(i++)\n").toList (by decide)


/-! ### The puts rewrite, in general -/

theorem eqCI_refl (c : Char) : eqCI c c = true := by simp [eqCI]

theorem startsWithCI_self : ∀ (pat rest : List Char),
    startsWithCI pat (pat ++ rest) = true
  | [], _ => rfl
  | p :: ps, rest => by
      rw [List.cons_append, startsWithCI.eq_def]
      simp [eqCI_refl, startsWithCI_self ps rest]

theorem findCI_self (pat rest : List Char) (hp : pat ≠ []) :
    findCI pat (pat ++ rest) = Option.some 0 := by
  cases pat with
  | nil => exact absurd rfl hp
  | cons p ps =>
      rw [List.cons_append, findCI.eq_def]
      dsimp only
      rw [← List.cons_append, startsWithCI_self (p :: ps) rest]
      simp

theorem splitNl_append : ∀ (x r : List Char), '\n' ∉ x →
    splitNl (x ++ '\n' :: r) = x :: splitNl r
  | [], r, _ => by rw [List.nil_append, splitNl.eq_def]; simp
  | c :: x, r, h => by
      have hc : ¬(c = '\n') := fun hh => h (by simp [hh])
      have ih := splitNl_append x r (fun hh => h (by simp [hh]))
      rw [List.cons_append, splitNl.eq_def]
      simp only [hc, if_false]
      rw [ih]

/-- Occurrence of the three-character separator ` + `. -/
def hasPlusSep : List Char → Bool
  | [] => false
  | c :: t =>
      match t with
      | c2 :: c3 :: _ => (c = ' ' && c2 = '+' && c3 = ' ') || hasPlusSep t
      | _ => false

theorem noPlus_noSep : ∀ l : List Char, '+' ∉ l → hasPlusSep l = false
  | [] => fun _ => rfl
  | c :: t => by
      intro h
      rw [hasPlusSep.eq_def]
      cases t with
      | nil => simp
      | cons c2 t2 =>
          cases t2 with
          | nil => simp
          | cons c3 t3 =>
              have h2 : ¬(c2 = '+') := fun hh => h (by simp [hh])
              have ih := noPlus_noSep (c2 :: c3 :: t3) (fun hh => h (by simp [List.mem_cons] at hh ⊢; tauto))
              simp [h2, ih]

theorem splitPlusSep_noSep : ∀ l : List Char, hasPlusSep l = false →
    splitPlusSep l = [l]
  | [] => fun _ => rfl
  | c :: t => by
      intro h
      have h0 : splitPlusSep ([] : List Char) = [[]] := by rw [splitPlusSep]
      rw [splitPlusSep.eq_def]
      cases t with
      | nil => rw [h0]; simp [consHead]
      | cons c2 t2 =>
          cases t2 with
          | nil =>
              have h1 : splitPlusSep [c2] = [[c2]] := by
                rw [splitPlusSep.eq_def]
                dsimp only
                rw [h0]
                simp [consHead]
              dsimp only
              rw [h1]
              simp [consHead]
          | cons c3 t3 =>
              rw [hasPlusSep.eq_def] at h
              simp only [Bool.or_eq_false_iff] at h
              obtain ⟨hw, ht⟩ := h
              have ih := splitPlusSep_noSep (c2 :: c3 :: t3) ht
              simp only [hw, Bool.false_eq_true, if_false, ih, consHead]

theorem joinPlusSep_single (a : List Char) : joinPlusSep [a] = a := rfl

/-- The effect of the puts replacer on one full line of the shape
`puts(` + capture + `)`: the capture is split on ` + ` and every
non-string-literal piece is wrapped. -/
theorem putsLine_eq (inner : List Char) (hne : inner ≠ []) :
    putsLine (("puts(").toList ++ (inner ++ [')']))
      = ("puts(").toList ++ (joinPlusSep ((splitPlusSep inner).map wrapArg) ++ [')']) := by
  have hf := findCI_self (("puts(").toList) (inner ++ [')']) (by decide)
  rw [putsLine, hf]
  dsimp only
  have hdrop : (("puts(").toList ++ (inner ++ [')'])).drop (0 + 5) = inner ++ [')'] := rfl
  rw [hdrop]
  have hlast : (inner ++ [')']).getLast? = Option.some ')' := by
    simp [List.getLast?_concat]
  have hlen : 2 ≤ (inner ++ [')']).length := by
    have := List.length_pos.mpr hne
    simp only [List.length_append, List.length_singleton]
    omega
  rw [if_pos (by simp [hlast]; exact List.length_pos.mpr hne)]
  rw [List.dropLast_concat]
  simp

/-- `putsPass` on a single newline-terminated line. -/
theorem putsPass_single_line (x : List Char) (hnl : '\n' ∉ x) :
    putsPass (String.mk (x ++ ['\n'])) = String.mk (putsLine x ++ ['\n']) := by
  rw [putsPass]
  rw [show (String.mk (x ++ ['\n'])).toList = x ++ '\n' :: [] from rfl]
  rw [splitNl_append x [] hnl]
  rw [show splitNl [] = [[]] from by rw [splitNl]]
  rfl


/--
C9 : For a print-like call line `puts(` + argument text + `)` produced on
its own newline-terminated line, the puts rewrite splits the argument
text on ` + `, leaves every piece whose first character is a quote (a
string literal) unchanged, wraps every other piece in an explicit
`(...).to_s` stringification, and re-emits the pieces joined by ` + ` as
a single `puts(...)` call.
-/
theorem puts_stringification (inner : List Char) (hne : inner ≠ []) (hnl : '\n' ∉ inner) :
    putsPass (String.mk ((("puts(").toList ++ (inner ++ [')'])) ++ ['\n']))
      = String.mk ((("puts(").toList
          ++ (joinPlusSep ((splitPlusSep inner).map (fun a =>
              if a.head? = Option.some '\'' || a.head? = Option.some '"' then a
              else '(' :: a ++ (").to_s").toList)) ++ [')'])) ++ ['\n']) := by
  have hx : '\n' ∉ (("puts(").toList ++ (inner ++ [')'])) := by
    intro hmem
    rcases List.mem_append.mp hmem with hmem | hmem
    · exact absurd hmem (by decide)
    · rcases List.mem_append.mp hmem with hmem | hmem
      · exact hnl hmem
      · exact absurd hmem (by decide)
  rw [putsPass_single_line _ hx, putsLine_eq inner hne]
  rfl

/-- Witness for C9 at the spec's example `print(a + "b" + c)`:
the non-string arguments are stringified, the string literal is kept. -/
theorem puts_stringification_witness :
    putsPass "puts(a + \"b\" + c)\n" = "puts((a).to_s + \"b\" + (c).to_s)\n" := by
  exact puts_stringification ("a + \"b\" + c").toList (by decide) (by decide)

/--
C3 (amended) : The Correction Pipeline is not idempotent.  The puts
rewrite's own output still matches its trigger pattern: a corrected call
`puts((x).to_s)` is, on a second application of the pass, wrapped again
into `puts(((x).to_s).to_s)`; this theorem shows the first and second
applications for any newline-free, `+`-free, non-string-literal
argument text.
-/
theorem puts_rewrap_not_idempotent (x : List Char) (hne : x ≠ []) (hnl : '\n' ∉ x)
    (hplus : '+' ∉ x)
    (hq : (decide (x.head? = Option.some '\'') || decide (x.head? = Option.some '"')) = false) :
    putsPass (String.mk ((("puts(").toList ++ (x ++ [')'])) ++ ['\n']))
      = String.mk ((("puts(").toList ++ (('(' :: (x ++ (").to_s").toList)) ++ [')'])) ++ ['\n'])
    ∧ putsPass (String.mk ((("puts(").toList ++ (('(' :: (x ++ (").to_s").toList)) ++ [')'])) ++ ['\n']))
      = String.mk ((("puts(").toList
          ++ (('(' :: (('(' :: (x ++ (").to_s").toList)) ++ (").to_s").toList)) ++ [')'])) ++ ['\n']) := by
  have hw1 : wrapArg x = '(' :: (x ++ (").to_s").toList) := by
    rw [wrapArg, if_neg (by simp [hq])]
    simp
  constructor
  · have hx : '\n' ∉ (("puts(").toList ++ (x ++ [')'])) := by
      intro hmem
      rcases List.mem_append.mp hmem with hmem | hmem
      · exact absurd hmem (by decide)
      · rcases List.mem_append.mp hmem with hmem | hmem
        · exact hnl hmem
        · exact absurd hmem (by decide)
    rw [putsPass_single_line _ hx, putsLine_eq x hne,
      splitPlusSep_noSep x (noPlus_noSep x hplus)]
    simp only [List.map_cons, List.map_nil, joinPlusSep_single, hw1]
  · set y : List Char := '(' :: (x ++ (").to_s").toList) with hy
    have hney : y ≠ [] := by simp [hy]
    have hnly : '\n' ∉ y := by
      intro hmem
      rw [hy] at hmem
      rcases List.mem_cons.mp hmem with hmem | hmem
      · exact absurd hmem (by decide)
      · rcases List.mem_append.mp hmem with hmem | hmem
        · exact hnl hmem
        · exact absurd hmem (by decide)
    have hplusy : '+' ∉ y := by
      intro hmem
      rw [hy] at hmem
      rcases List.mem_cons.mp hmem with hmem | hmem
      · exact absurd hmem (by decide)
      · rcases List.mem_append.mp hmem with hmem | hmem
        · exact hplus hmem
        · exact absurd hmem (by decide)
    have hw2 : wrapArg y = '(' :: (y ++ (").to_s").toList) := by
      rw [wrapArg, if_neg (by simp [hy])]
      simp
    have hx2 : '\n' ∉ (("puts(").toList ++ (y ++ [')'])) := by
      intro hmem
      rcases List.mem_append.mp hmem with hmem | hmem
      · exact absurd hmem (by decide)
      · rcases List.mem_append.mp hmem with hmem | hmem
        · exact hnly hmem
        · exact absurd hmem (by decide)
    rw [putsPass_single_line _ hx2, putsLine_eq y hney,
      splitPlusSep_noSep y (noPlus_noSep y hplusy)]
    simp only [List.map_cons, List.map_nil, joinPlusSep_single, hw2]

/-- Witness for the amended C3 at argument `x`: the first and second
applications of the pass. -/
theorem puts_rewrap_witness :
    putsPass "puts(x)\n" = "puts((x).to_s)\n"
    ∧ putsPass "puts((x).to_s)\n" = "puts(((x).to_s).to_s)\n" := by
  have h := puts_rewrap_not_idempotent ['x'] (by decide) (by decide) (by decide) (by decide)
  exact ⟨h.1, h.2⟩

/--
C3 (counterexample) : the Correction Pipeline is not idempotent as
claimed.  On the Dispatch-Engine output for `puts(x)` (a program whose
sole statement calls `puts` with a non-string argument), the pipeline
produces `puts((x).to_s)`; running the pipeline again on that
already-corrected text changes it further, to `puts(((x).to_s).to_s)`.
-/
theorem correction_pipeline_not_idempotent :
    (RubyTranspiler.parse (mkRubyTranspiler [])
        (.program (.cons (.exprStmt (.call (.ident "puts") (.cons (.ident "x") .nil))) .nil))).map
      (fun p => p.1) = .ok "puts((x).to_s)\n"
    ∧ correct [] "puts((x).to_s)\n" = .ok "puts(((x).to_s).to_s)\n"
    ∧ ("puts(((x).to_s).to_s)\n" : String) ≠ "puts((x).to_s)\n" :=
  ⟨rfl, rfl, by decide⟩


/--
C1 : The claimed return-wrapping of a non-block `if` consequent does not
happen.  `Object.assign(tempNode, node.consequent)` copies the
consequent's own `type` over the intended `'ReturnStatement'`, so the
synthesized one-statement block contains the original statement, not a
return of its value: on `if (t) x;` the code emits the statement `x`
plainly inside the block, which differs from the translation of the
explicitly-blocked `if (t) { return x; }` the claim promises.
-/
theorem if_consequent_wrap_is_not_return :
    (recursiveParse Buffer.empty
        (.ifStmt (.ident "t") (.exprStmt (.ident "x")) .none)).map (fun p => p.1.get)
      = .ok "if t\n  x\nend\n"
    ∧ (recursiveParse Buffer.empty
        (.ifStmt (.ident "t")
          (.blockStmt (.cons (.returnStmt (.some (.ident "x"))) .nil)) .none)).map
        (fun p => p.1.get)
      = .ok "if t\n  return x\nend\n"
    ∧ ("if t\n  x\nend\n" : String) ≠ "if t\n  return x\nend\n" :=
  ⟨rfl, rfl, by decide⟩

/-- A small `for` loop used to exhibit the `ForStatement` mutation. -/
def forExample : Node :=
  .forStmt
    (.varDecl (.cons (.varDeclarator (.ident "i") (.some (.numLit "0"))) .nil))
    (.binary "<" (.ident "i") (.numLit "3"))
    (.updateExpr "++" false (.ident "i"))
    (.blockStmt (.cons (.exprStmt (.call (.ident "f") (.cons (.ident "i") .nil))) .nil))

/-- The tree `forExample` becomes after translation: a while-loop with
the update pushed into the body. -/
def forExampleAfter : Node :=
  .whileStmt (.binary "<" (.ident "i") (.numLit "3"))
    (.blockStmt (.cons (.exprStmt (.call (.ident "f") (.cons (.ident "i") .nil)))
      (.cons (.updateExpr "++" false (.ident "i")) .nil)))

/--
C2 (counterexample) : translation is not read-only up to the documented
consequent wrapping.  Dispatching a `for` loop leaves the caller's node
retagged as a while-loop with the update appended to its block body —
a change `wrapConsequentsOnly` (the frame the claim permits) never
makes.
-/
theorem forStmt_mutates_beyond_wrapping :
    (recursiveParse Buffer.empty forExample).map (fun p => p.2) = .ok forExampleAfter
    ∧ forExampleAfter ≠ wrapConsequentsOnly forExample :=
  ⟨rfl, by decide⟩

/--
C2 (amended) : after a successful translation the caller's tree is
`normalize` of the input: every node is unchanged except for the
documented wrapping of a non-block `if` consequent into a one-statement
block, and the `for` desugaring, which retags the node as a while-loop
whose block body gets the update appended (the stale `init`/`update`
fields of the mutated object are dropped in this model).
-/
theorem translation_tree_effect (n : Node) (b b2 : Buffer) (n2 : Node)
    (h : recursiveParse b n = .ok (b2, n2)) : n2 = normalize n :=
  recursiveParse_tree n b b2 n2 h

/-- Witness for the amended C2 at `if (c) y;`. -/
theorem translation_tree_effect_witness :
    (Node.ifStmt (.ident "c") (.blockStmt (.cons (.exprStmt (.ident "y")) .nil)) .none)
      = normalize (.ifStmt (.ident "c") (.exprStmt (.ident "y")) .none)
    ∧ recursiveParse Buffer.empty (.ifStmt (.ident "c") (.exprStmt (.ident "y")) .none)
      = .ok (⟨("if c\n  y\nend\n").toList, 0⟩,
          .ifStmt (.ident "c") (.blockStmt (.cons (.exprStmt (.ident "y")) .nil)) .none) :=
  ⟨translation_tree_effect _ Buffer.empty _ _ rfl, rfl⟩

/--
C5 (counterexample) : a malformed pattern in the correction table does
not fail at construction.  With the table `{"(": "x"}`, construction
succeeds and returns a translator holding the raw table; the failure
surfaces only during a translation run, when `correct` reaches
`new RegExp`.
-/
theorem invalid_pattern_not_load_time :
    mkRubyTranspiler [("(", "x")] = ⟨[("(", "x")], Buffer.empty⟩
    ∧ (mkRubyTranspiler [("(", "x")]).parse (.program .nil)
        = .error (.invalidPattern "(") :=
  ⟨rfl, rfl⟩

/--
C5 (amended) : construction never validates patterns — it stores the
table as loaded and always succeeds — and a malformed pattern instead
fails lazily during a translation run, when `correct` compiles the
table entries in order (`new RegExp(key, 'gmi')`, line 24).
-/
theorem invalid_pattern_fails_lazily (tbl : List (String × String))
    (k v : String) (rest : List (String × String)) (code : String)
    (hk : compilePattern k = Option.none) :
    mkRubyTranspiler tbl = ⟨tbl, Buffer.empty⟩
    ∧ tablePass ((k, v) :: rest) code = .error (.invalidPattern k)
    ∧ (mkRubyTranspiler ((k, v) :: rest)).parse (.program .nil)
        = .error (.invalidPattern k) := by
  have ht : ∀ c : String, tablePass ((k, v) :: rest) c = .error (.invalidPattern k) := by
    intro c
    rw [tablePass.eq_def]
    dsimp only
    rw [hk]
  have hc : correct ((k, v) :: rest) "" = .error (.invalidPattern k) := by
    rw [correct, ht ""]
    rfl
  refine ⟨rfl, ht code, ?_⟩
  rw [RubyTranspiler.parse]
  rw [show recursiveParse (mkRubyTranspiler ((k, v) :: rest)).buffer (.program .nil)
        = .ok (Buffer.empty, .program .nil) from rfl]
  rw [ok_bind]
  simp only [mkRubyTranspiler]
  rw [show (Buffer.get Buffer.empty) = "" from rfl]
  rw [hc]
  rfl

/-- Witness for the amended C5 at the table `{"(": "x"}`. -/
theorem invalid_pattern_fails_lazily_witness :
    mkRubyTranspiler [("<", "lt")] = ⟨[("<", "lt")], Buffer.empty⟩
    ∧ tablePass [("(", "x")] "a\n" = .error (.invalidPattern "(")
    ∧ (mkRubyTranspiler [("(", "x")]).parse (.program .nil)
        = .error (.invalidPattern "(") := by
  have h := invalid_pattern_fails_lazily [("<", "lt")] "(" "x" [] "a\n" rfl
  exact ⟨h.1, h.2.1, h.2.2⟩

/--
C6 : dispatching a node whose tag has no registered operation fails
fatally with the unsupported-construct error, and a statement sequence
containing such a node yields that error and no output, however much of
the sequence had already been rendered.
-/
theorem unsupported_tag_fails (tag : String) (b b1 : Buffer)
    (pre post pre2 : NodeList) :
    recursiveParse b (.unknown tag) = .error (.unsupportedNode tag)
    ∧ (parseNodes b pre = .ok (b1, pre2) →
        parseNodes b (pre.append (.cons (.unknown tag) post))
          = .error (.unsupportedNode tag)) := by
  constructor
  · rw [recursiveParse]
  · intro h
    rw [parseNodes_append, h, ok_bind]
    dsimp only
    rw [parseNodes.eq_def]
    dsimp only
    rw [show recursiveParse b1 (.unknown tag) = .error (.unsupportedNode tag) from by
        rw [recursiveParse]]
    rfl

/-- Witness for C6: a program whose second statement has the unregistered
tag `WithStatement` fails with the unsupported-construct error after the
first statement rendered. -/
theorem unsupported_tag_fails_witness :
    parseNodes Buffer.empty
        (NodeList.cons (.exprStmt (.ident "x"))
          (.cons (.unknown "WithStatement") .nil))
      = .error (.unsupportedNode "WithStatement") := by
  have h := (unsupported_tag_fails "WithStatement" Buffer.empty ⟨("x\n").toList, 0⟩
      (.cons (.exprStmt (.ident "x")) .nil) .nil
      (.cons (.exprStmt (.ident "x")) .nil)).2 rfl
  exact h

/--
C7 : a binary expression renders as its left operand, the spaced
operator, and its right operand, where a side is parenthesized exactly
when that side is itself a binary expression — `emitted` is what each
side renders on its own — and no other parentheses are introduced.
-/
theorem binary_parenthesization (op : String) (l r : Node)
    (hl : exprOnly l = true) (hr : exprOnly r = true) (b : Buffer) :
    recursiveParse b (.binary op l r)
      = .ok (⟨b.text
          ++ ((if l.isBinaryExpression then '(' :: (emitted l ++ [')']) else emitted l)
            ++ (' ' :: (op.toList
              ++ (' ' :: (if r.isBinaryExpression then '(' :: (emitted r ++ [')'])
                    else emitted r))))),
          b.ind⟩, .binary op l r) := by
  have ihl := recursiveParse_expr_local l hl
  have ihr := recursiveParse_expr_local r hr
  have hb := recursiveParse_expr_local (.binary op l r)
    (by rw [exprOnly]; simp [hl, hr]) b
  rw [hb]
  have he : emitted (.binary op l r)
      = (if l.isBinaryExpression then '(' :: (emitted l ++ [')']) else emitted l)
        ++ (' ' :: (op.toList
          ++ (' ' :: (if r.isBinaryExpression then '(' :: (emitted r ++ [')'])
                else emitted r)))) := by
    simp only [emitted]
    cases hbl : l.isBinaryExpression <;> cases hbr : r.isBinaryExpression <;>
      simp [recursiveParse, outText, hbl, hbr, ihl, ihr, Buffer.add, Buffer.empty,
        ok_bind, pure_bind, pure, Except.pure, List.append_assoc]
  rw [he]

/-- Witness for C7: `(a + b) * c` — the binary left child is
parenthesized, the identifier right child is not. -/
theorem binary_parenthesization_witness :
    (recursiveParse Buffer.empty
        (.binary "*" (.binary "+" (.ident "a") (.ident "b")) (.ident "c"))).map
      (fun p => p.1.get) = .ok "(a + b) * c" := by
  have h := binary_parenthesization "*" (.binary "+" (.ident "a") (.ident "b"))
    (.ident "c") (by decide) (by decide) Buffer.empty
  rw [h]
  rfl

/--
C10 (counterexample) : two runs on equal inputs can return equal outputs
with no intervening `clear()`: on the empty program the first parse
leaves the instance state exactly as constructed (the buffer got no
text), so the second parse is the same call and returns the same empty
output.
-/
theorem repeated_parse_equal_outputs :
    (mkRubyTranspiler []).parse (.program .nil)
      = .ok ("", mkRubyTranspiler [], .program .nil) := rfl

/--
C10 (amended) : `parse` is stateful: the buffer is created once at
construction and never reset by `parse`, which appends to it and
returns the correction of the whole accumulated text.  On a program
with nonempty rendering, a second `parse` of the same root returns the
first output with the second run's text appended — different from the
first output — while an intervening `clear()` restores the first
output; on an empty rendering both runs return the same empty string.
-/
theorem parse_accumulates_buffer :
    (mkRubyTranspiler []).parse (.program (.cons (.exprStmt (.ident "x")) .nil))
      = .ok ("x\n", ⟨[], ⟨("x\n").toList, 0⟩⟩,
          .program (.cons (.exprStmt (.ident "x")) .nil))
    ∧ (RubyTranspiler.parse ⟨[], ⟨("x\n").toList, 0⟩⟩
          (.program (.cons (.exprStmt (.ident "x")) .nil))).map (fun p => p.1)
      = .ok "x\nx\n"
    ∧ ("x\nx\n" : String) = "x\n" ++ "x\n"
    ∧ ("x\nx\n" : String) ≠ "x\n"
    ∧ ((RubyTranspiler.clear ⟨[], ⟨("x\n").toList, 0⟩⟩).parse
          (.program (.cons (.exprStmt (.ident "x")) .nil))).map (fun p => p.1)
      = .ok "x\n" :=
  ⟨rfl, rfl, rfl, by decide, rfl⟩

end RubyT
